import Mathlib

/-!
Verification of the kilo text editor (src/kilo.c) against its specification.

The C source is shallowly embedded: C strings become `List Char` (reads past
the end of a NUL-terminated buffer see the terminator, `charAt`), the global
editor state becomes explicit records threaded through the functions, and the
two recursions of the source (the highlight scan's `while` loop over a row and
`editorUpdateSyntax`'s recursion into the next row) become structurally
recursive functions on an explicit fuel that is always instantiated large
enough — lemmas below discharge the fuel where it matters.  Machine ints only
hold small non-negative counts here except where the source really uses
signedness (`last_match = -1`, `direction = ±1` in the find callback, the
return value of `write`), where `Int` is used.
-/

namespace Kilo

/-- KILO_TAB_STOP from src/kilo.c line 34. -/
def KILO_TAB_STOP : Nat := 8

/-- KILO_QUIT_TIMES from src/kilo.c line 35. -/
def KILO_QUIT_TIMES : Nat := 3

/-- The NUL terminator of a C string. -/
def nulChar : Char := Char.ofNat 0

/-- Reading byte `j` of a NUL-terminated C string: past the end one sees NUL. -/
def charAt (s : List Char) (j : Nat) : Char := s.getD j nulChar

/-- C `isspace` on ASCII: space and 0x09..0x0D. -/
def isspaceB (c : Char) : Bool := c == ' ' || (9 ≤ c.toNat && c.toNat ≤ 13)

/-- C `isdigit`. -/
def isdigitB (c : Char) : Bool := 48 ≤ c.toNat && c.toNat ≤ 57

/-- is_separator, src/kilo.c line 343.  The source's `|` between `c == '\0'`
and the strchr test is a bitwise or of two 0/1 values, i.e. a logical or;
`strchr(s, '\0')` also finds the terminator, so NUL counts as a separator
either way. -/
def is_separator (c : Char) : Bool :=
  isspaceB c || c == nulChar || (",.()+-/=~%<>[];".toList.contains c)

/-- `strncmp(&hay[i], pat, pat.length) == 0`: `pat` matches `hay` at
position `i`, reads past `hay`'s end seeing the NUL terminator. -/
def strncmpEq (hay : List Char) (i : Nat) : List Char → Bool
  | [] => true
  | p :: ps => charAt hay i == p && strncmpEq hay (i + 1) ps

/-- Index of the first occurrence of `pat` in `hay` (C `strstr`,
as `match - hay` when the result is non-NULL). -/
def strstrIdx : List Char → List Char → Option Nat
  | hay, pat =>
    if pat.isPrefixOf hay then some 0
    else
      match hay with
      | [] => none
      | _ :: t => (strstrIdx t pat).map (· + 1)

/-! ## Row rendering and cursor conversions (src/kilo.c lines 530-603) -/

/-- The body of editorUpdateRow's render loop (lines 584-598): a TAB becomes
one space and then spaces up to the next multiple of KILO_TAB_STOP, every
other byte is copied. -/
def renderChars (chars : List Char) : List Char :=
  chars.foldl
    (fun acc c =>
      if c == '\t' then acc ++ List.replicate (KILO_TAB_STOP - acc.length % KILO_TAB_STOP) ' '
      else acc ++ [c])
    []

/-- editorRowCxToRx, src/kilo.c lines 530-541.  The C loop reads
`row->chars[j]` for every `j < cx`; reads at or past the end see NUL. -/
def editorRowCxToRx (chars : List Char) (cx : Nat) : Nat :=
  (List.range cx).foldl
    (fun rx j =>
      if charAt chars j == '\t' then rx + (KILO_TAB_STOP - 1 - rx % KILO_TAB_STOP) + 1
      else rx + 1)
    0

/-- The loop of editorRowRxToCx (lines 554-565), with the early return. -/
def rxToCxGo : List Char → Nat → Nat → Nat → Nat
  | [], _, _, cx => cx
  | c :: rest, rx, curRx, cx =>
    let curRx2 := if c == '\t' then curRx + (KILO_TAB_STOP - 1 - curRx % KILO_TAB_STOP) + 1
                  else curRx + 1
    if rx < curRx2 then cx else rxToCxGo rest rx curRx2 (cx + 1)

/-- editorRowRxToCx, src/kilo.c lines 554-565. -/
def editorRowRxToCx (chars : List Char) (rx : Nat) : Nat := rxToCxGo chars rx 0 0

/-! ## The quit-while-dirty guard (editorProcessKeypress, src/kilo.c 1107-1183) -/

/-- A keypress as the quit guard sees it: CTRL-Q, or any other key.  Every
non-CTRL-Q branch of editorProcessKeypress falls through to
`quit_times = KILO_QUIT_TIMES` at the end of the function; its effect on
`dirty` (a character insert bumps it, a successful save zeroes it, an arrow
key keeps it) is abstracted into the `newDirty` the key leaves behind. -/
inductive QuitKey where
  | ctrlQ : QuitKey
  | otherKey (newDirty : Nat) : QuitKey
deriving DecidableEq, Repr

/-- The part of the editor state the quit guard reads and writes.  `warned`
models the status message: `some n` after the guard printed
"Press Ctrl-Q n more times to quit". -/
structure QuitState where
  dirty : Nat
  quit_times : Nat
  warned : Option Nat
deriving DecidableEq, Repr

inductive QuitResult where
  | running (s : QuitState) : QuitResult
  | exited (code : Nat) : QuitResult
deriving DecidableEq, Repr

/-- The CTRL-Q case of editorProcessKeypress (lines 1118-1128) and the final
`quit_times = KILO_QUIT_TIMES` (line 1182) reached by every other key. -/
def processKeypressQuit (s : QuitState) : QuitKey → QuitResult
  | QuitKey.ctrlQ =>
    if s.dirty ≠ 0 ∧ 0 < s.quit_times then
      QuitResult.running { s with warned := some s.quit_times, quit_times := s.quit_times - 1 }
    else QuitResult.exited 0
  | QuitKey.otherKey d =>
    QuitResult.running { dirty := d, quit_times := KILO_QUIT_TIMES, warned := s.warned }

/-- A sequence of keypresses; once the process exits, later keys are gone. -/
def runKeys : QuitState → List QuitKey → QuitResult
  | s, [] => QuitResult.running s
  | s, k :: ks =>
    match processKeypressQuit s k with
    | QuitResult.running s' => runKeys s' ks
    | QuitResult.exited c => QuitResult.exited c

/-! ## editorSave (src/kilo.c lines 874-906) -/

/-- The status messages editorSave can set. -/
inductive SaveStatus where
  | noMsg : SaveStatus
  | bytesWritten (n : Nat) : SaveStatus
  | cantSave : SaveStatus
deriving DecidableEq, Repr

/-- The outcomes of the three syscalls of the save path: `open` succeeding,
`ftruncate` succeeding, and the return value of `write` (bytes written,
or -1). -/
structure SaveEnv where
  openOk : Bool
  truncOk : Bool
  writeRet : Int
deriving DecidableEq, Repr

/-- The editor state editorSave reads and writes: the rows' `chars`, the
dirty counter, the filename and the status message. -/
structure SaveState where
  rows : List (List Char)
  dirty : Nat
  filename : Option (List Char)
  statusmsg : SaveStatus
deriving DecidableEq, Repr

/-- The `totlen` of editorRowsToString (lines 820-824): each row's size
plus one for its newline. -/
def bufLen (rows : List (List Char)) : Nat := (rows.map (fun r => r.length + 1)).sum

/-- editorSave, src/kilo.c lines 874-906, for a state that already has a
filename (the save-as prompt of lines 876-883 is not taken).  Success needs
`open`, `ftruncate` and a complete `write` of `len` bytes; any failure
falls to line 905's "Can't save! I/O error" message with `dirty` untouched. -/
def editorSave (env : SaveEnv) (st : SaveState) : SaveState :=
  match st.filename with
  | none => st
  | some _ =>
    let len := bufLen st.rows
    if env.openOk then
      if env.truncOk then
        if env.writeRet == (len : Int) then
          { st with dirty := 0, statusmsg := SaveStatus.bytesWritten len }
        else { st with statusmsg := SaveStatus.cantSave }
      else { st with statusmsg := SaveStatus.cantSave }
    else { st with statusmsg := SaveStatus.cantSave }

/-! ## editorScroll and editorRefreshScreen (src/kilo.c 1236-1260, 1395-1417) -/

/-- The viewport state: cursor, render column, offsets, screen size and the
rows' `chars` (all the scroll code reads of a row). -/
structure VState where
  cx : Nat
  cy : Nat
  rx : Nat
  rowoff : Nat
  coloff : Nat
  screenrows : Nat
  screencols : Nat
  rows : List (List Char)
deriving DecidableEq, Repr

/-- editorScroll, src/kilo.c lines 1236-1260.  The second `rowoff` (resp.
`coloff`) test reads the value the first may have just written, exactly as
the C statements do in sequence. -/
def editorScroll (s : VState) : VState :=
  let rx := if s.cy < s.rows.length then editorRowCxToRx (s.rows.getD s.cy []) s.cx else 0
  let r1 := if s.cy < s.rowoff then s.cy else s.rowoff
  let r2 := if r1 + s.screenrows ≤ s.cy then s.cy - s.screenrows + 1 else r1
  let c1 := if rx < s.coloff then rx else s.coloff
  let c2 := if c1 + s.screencols ≤ rx then rx - s.screencols + 1 else c1
  { s with rx := rx, rowoff := r2, coloff := c2 }

/-- editorRefreshScreen, src/kilo.c lines 1395-1417: it calls editorScroll
and then only composes and writes terminal output; no field of the state
changes after the scroll. -/
def editorRefreshScreen (s : VState) : VState := editorScroll s

/-! ## Syntax highlighting (src/kilo.c lines 341-515) -/

/-- enum editorHighlight, src/kilo.c lines 51-60. -/
inductive HL where
  | hl_normal : HL
  | hl_comment : HL
  | hl_mlcomment : HL
  | hl_keyword1 : HL
  | hl_keyword2 : HL
  | hl_string : HL
  | hl_number : HL
  | hl_match : HL
deriving DecidableEq, Repr

/-- struct editorSyntax (lines 67-75); the two flag bits are split out. -/
structure EditorSyntax where
  filetype : List Char
  filematch : List (List Char)
  keywords : List (List Char)
  scs : List Char
  mcs : List Char
  mce : List Char
  hlNumbers : Bool
  hlStrings : Bool
deriving DecidableEq, Repr

/-- C_HL_extensions, src/kilo.c line 111. -/
def C_HL_extensions : List (List Char) := [".c".toList, ".h".toList, ".cpp".toList]

/-- C_HL_keywords, src/kilo.c lines 112-118 (a trailing '|' marks a
secondary keyword). -/
def C_HL_keywords : List (List Char) :=
  ["switch", "if", "while", "for", "break", "continue", "return", "else",
   "struct", "union", "typedef", "static", "enum", "class", "case",
   "int|", "long|", "double|", "float|", "char|", "unsigned|", "signed|",
   "void|"].map String.toList

/-- The single HLDB entry (lines 120-128). -/
def cSyntax : EditorSyntax :=
  { filetype := "c".toList, filematch := C_HL_extensions, keywords := C_HL_keywords,
    scs := "//".toList, mcs := "/*".toList, mce := "*/".toList,
    hlNumbers := true, hlStrings := true }

/-- The keyword loop of editorUpdateSyntax (lines 437-448): the first
keyword matching at `i` whose end is followed by a separator, returned as
(its length with the trailing bar stripped, whether it is secondary).  The
C loop would not advance on an empty keyword "|" (absent from HLDB); the
`klen != 0` guard makes the model total there. -/
def findKeyword (render : List Char) (i : Nat) : List (List Char) → Option (Nat × Bool)
  | [] => none
  | kw :: rest =>
    let kw2 := kw.getLast? == some '|'
    let klen := if kw2 then kw.length - 1 else kw.length
    let pat := if kw2 then kw.dropLast else kw
    if klen != 0 && strncmpEq render i pat && is_separator (charAt render (i + klen)) then
      some (klen, kw2)
    else findKeyword render i rest

/-- The scan loop of editorUpdateSyntax (lines 374-457), one iteration per
fuel unit (each iteration advances `i`, so fuel `render.length` suffices).
State: `i`, `prev_sep`, `in_string` (the quote character when set),
`in_comment`, and `acc` — the highlight bytes for positions below `i`.
The C code memsets `hl` to HL_NORMAL and paints in place, writing each
position exactly once before moving past it, so the final array equals the
appended chunks; the memset default surfaces as the `pending` value of the
fall-through path.  Returns (hl, final in_comment). -/
def scanLoop (syn : EditorSyntax) (render : List Char) :
    Nat → Nat → Bool → Option Char → Bool → List HL → List HL × Bool
  | 0, _, _, _, inComment, acc => (acc, inComment)
  | fuel + 1, i, prevSep, inString, inComment, acc =>
    if i < render.length then
      let c := charAt render i
      let prevHl := acc.getLastD HL.hl_normal
      if syn.scs != [] && inString.isNone && !inComment && strncmpEq render i syn.scs then
        (acc ++ List.replicate (render.length - i) HL.hl_comment, inComment)
      else if syn.mcs != [] && syn.mce != [] && inString.isNone && inComment then
        if strncmpEq render i syn.mce then
          scanLoop syn render fuel (i + syn.mce.length) true inString false
            (acc ++ List.replicate syn.mce.length HL.hl_mlcomment)
        else
          scanLoop syn render fuel (i + 1) prevSep inString true (acc ++ [HL.hl_mlcomment])
      else if syn.mcs != [] && syn.mce != [] && inString.isNone && !inComment &&
          strncmpEq render i syn.mcs then
        scanLoop syn render fuel (i + syn.mcs.length) prevSep inString true
          (acc ++ List.replicate syn.mcs.length HL.hl_mlcomment)
      else if syn.hlStrings && inString.isSome then
        if c == '\\' && i + 1 < render.length then
          scanLoop syn render fuel (i + 2) prevSep inString inComment
            (acc ++ [HL.hl_string, HL.hl_string])
        else
          scanLoop syn render fuel (i + 1) true
            (if inString == some c then none else inString) inComment (acc ++ [HL.hl_string])
      else
        let opensString := syn.hlStrings && inString.isNone && (c == '"' || c == '\'')
        let inString2 := if opensString then some c else inString
        let pending := if opensString then HL.hl_string else HL.hl_normal
        if syn.hlNumbers &&
            ((isdigitB c && (prevSep || prevHl == HL.hl_number)) ||
             (c == '.' && prevHl == HL.hl_number)) then
          scanLoop syn render fuel (i + 1) false inString2 inComment (acc ++ [HL.hl_number])
        else
          match (if prevSep then findKeyword render i syn.keywords else none) with
          | some (klen, kw2) =>
            scanLoop syn render fuel (i + klen) false inString2 inComment
              (acc ++ List.replicate klen (if kw2 then HL.hl_keyword2 else HL.hl_keyword1))
          | none =>
            scanLoop syn render fuel (i + 1) (is_separator c) inString2 inComment (acc ++ [pending])
    else (acc, inComment)

/-- One row's scan: initial prev_sep = 1, in_string = 0, in_comment seeded
by the caller (lines 370-372). -/
def scanRow (syn : EditorSyntax) (render : List Char) (inComment : Bool) : List HL × Bool :=
  scanLoop syn render render.length 0 true none inComment []

/-- struct erow (lines 77-86); `size` and `rsize` are the list lengths. -/
structure Erow where
  idx : Nat
  chars : List Char
  render : List Char
  hl : List HL
  hl_open_comment : Bool
deriving DecidableEq, Repr

def defaultErow : Erow :=
  { idx := 0, chars := [], render := [], hl := [], hl_open_comment := false }

/-- `E.row[i]`; the C code only reads rows in range. -/
def rowAt (rows : List Erow) (i : Nat) : Erow := rows.getD i defaultErow

/-- editorUpdateSyntax (lines 354-463) at row index `i`, returning the new
rows and how many editorUpdateSyntax calls ran (1 plus the recursive ones).
`numrows` is E.numrows at call time — inside editorInsertRow it is still
the pre-insert count, because editorUpdateRow runs before `E.numrows++`.
With E.syntax NULL the function memsets `hl` to HL_NORMAL and returns
before the open-comment update (lines 355-358).  The in_comment seed reads
`E.row[idx - 1]` where `idx` is the row's position (the C code uses the
row's idx field, equal to its position by the C6 invariant).  The
recursion into row `idx + 1` (lines 459-462) happens only when the
open-comment flag changed; fuel `numrows + 1` always suffices. -/
def editorUpdateSyntax (syn : Option EditorSyntax) (numrows : Nat) :
    Nat → List Erow → Nat → List Erow × Nat
  | 0, rows, _ => (rows, 0)
  | fuel + 1, rows, i =>
    let row := rowAt rows i
    match syn with
    | none => (rows.set i { row with hl := List.replicate row.render.length HL.hl_normal }, 1)
    | some s =>
      let inC : Bool := decide (0 < i) && (rowAt rows (i - 1)).hl_open_comment
      let scanned := scanRow s row.render inC
      let changed := row.hl_open_comment != scanned.2
      let rows2 := rows.set i { row with hl := scanned.1, hl_open_comment := scanned.2 }
      if changed && decide (i + 1 < numrows) then
        let r := editorUpdateSyntax syn numrows fuel rows2 (i + 1)
        (r.1, r.2 + 1)
      else (rows2, 1)

/-- editorUpdateRow (lines 574-603) at row index `i`: regenerate `render`
from `chars`, then run editorUpdateSyntax on the row. -/
def editorUpdateRow (syn : Option EditorSyntax) (numrows : Nat) (rows : List Erow) (i : Nat) :
    List Erow :=
  let row := rowAt rows i
  let rows2 := rows.set i { row with render := renderChars row.chars }
  (editorUpdateSyntax syn numrows (numrows + 1) rows2 i).1

/-- The buffer: rows, the selected language descriptor (E.syntax) and the
dirty counter. -/
structure EBuf where
  rows : List Erow
  syn : Option EditorSyntax
  dirty : Nat
deriving DecidableEq, Repr

/-- editorInsertRow (lines 614-645): no-op when `at` is out of range; the
rows from `at` shift right with their idx incremented (line 623); the new
row gets idx = at, the given chars, empty render/hl, open_comment 0, and
is rendered by editorUpdateRow *before* `E.numrows++`. -/
def editorInsertRow (buf : EBuf) (i : Nat) (s : List Char) : EBuf :=
  if buf.rows.length < i then buf
  else
    let newRow : Erow := { idx := i, chars := s, render := [], hl := [], hl_open_comment := false }
    let rows1 :=
      buf.rows.take i ++ newRow :: (buf.rows.drop i).map (fun r => { r with idx := r.idx + 1 })
    { buf with rows := editorUpdateRow buf.syn buf.rows.length rows1 i, dirty := buf.dirty + 1 }

/-- editorDelRow (lines 665-678): no-op out of range; rows after `at`
shift left with their idx decremented (line 673); no re-highlight runs. -/
def editorDelRow (buf : EBuf) (i : Nat) : EBuf :=
  if i < buf.rows.length then
    { buf with
      rows :=
        buf.rows.take i ++ (buf.rows.drop (i + 1)).map (fun r => { r with idx := r.idx - 1 }),
      dirty := buf.dirty + 1 }
  else buf

/-- editorRowInsertChar (lines 688-698) on the row at index `r` (the C
function takes a pointer; callers always pass a row of the buffer, so an
out-of-range `r` is modelled as a no-op).  `at` beyond the size is clamped
to the size (lines 690-691). -/
def editorRowInsertChar (buf : EBuf) (r : Nat) (i : Nat) (c : Char) : EBuf :=
  if r < buf.rows.length then
    let row := rowAt buf.rows r
    let j := if row.chars.length < i then row.chars.length else i
    let rows1 := buf.rows.set r { row with chars := row.chars.take j ++ c :: row.chars.drop j }
    { buf with rows := editorUpdateRow buf.syn buf.rows.length rows1 r, dirty := buf.dirty + 1 }
  else buf

/-- editorRowDelChar (lines 730-736): no-op when `at` is out of range. -/
def editorRowDelChar (buf : EBuf) (r : Nat) (i : Nat) : EBuf :=
  if r < buf.rows.length then
    let row := rowAt buf.rows r
    if i < row.chars.length then
      let rows1 := buf.rows.set r { row with chars := row.chars.take i ++ row.chars.drop (i + 1) }
      { buf with rows := editorUpdateRow buf.syn buf.rows.length rows1 r, dirty := buf.dirty + 1 }
    else buf
  else buf

/-- editorRowAppendString (lines 708-721). -/
def editorRowAppendString (buf : EBuf) (r : Nat) (s : List Char) : EBuf :=
  if r < buf.rows.length then
    let row := rowAt buf.rows r
    let rows1 := buf.rows.set r { row with chars := row.chars ++ s }
    { buf with rows := editorUpdateRow buf.syn buf.rows.length rows1 r, dirty := buf.dirty + 1 }
  else buf

/-- The row-level buffer operations the claims quantify over. -/
inductive BufOp where
  | insertRow (i : Nat) (s : List Char) : BufOp
  | delRow (i : Nat) : BufOp
  | rowInsertChar (r : Nat) (i : Nat) (c : Char) : BufOp
  | rowDelChar (r : Nat) (i : Nat) : BufOp
  | rowAppendString (r : Nat) (s : List Char) : BufOp
deriving DecidableEq, Repr

def applyOp (buf : EBuf) : BufOp → EBuf
  | BufOp.insertRow i s => editorInsertRow buf i s
  | BufOp.delRow i => editorDelRow buf i
  | BufOp.rowInsertChar r i c => editorRowInsertChar buf r i c
  | BufOp.rowDelChar r i => editorRowDelChar buf r i
  | BufOp.rowAppendString r s => editorRowAppendString buf r s

def applyOps (buf : EBuf) (ops : List BufOp) : EBuf := ops.foldl applyOp buf

/-- The C6 invariant: rows[i].idx == i. -/
def idxOk (rows : List Erow) : Prop := ∀ i, i < rows.length → (rowAt rows i).idx = i

/-- The C7 invariant: each row's hl has exactly rsize entries. -/
def hlOk (rows : List Erow) : Prop :=
  ∀ i, i < rows.length → (rowAt rows i).hl.length = (rowAt rows i).render.length

/-- Comment markers and keywords contain no NUL byte (true of HLDB): then
a successful match always lies inside the row. -/
def synWF (s : EditorSyntax) : Bool :=
  s.mcs.all (· != nulChar) && s.mce.all (· != nulChar) &&
    s.keywords.all (fun kw => kw.all (· != nulChar))

def synWFopt : Option EditorSyntax → Bool
  | none => true
  | some s => synWF s

/-- The in_comment seed of row `j`: its predecessor's open-comment flag
(lines 370-372). -/
def seedAt (rows : List Erow) (j : Nat) : Bool :=
  decide (0 < j) && (rowAt rows (j - 1)).hl_open_comment

/-- Row `j`'s stored hl and open-comment flag are exactly what scanning
its render seeded from its predecessor's flag produces. -/
def rowConsistent (s : EditorSyntax) (rows : List Erow) (j : Nat) : Prop :=
  (rowAt rows j).hl = (scanRow s (rowAt rows j).render (seedAt rows j)).1 ∧
  (rowAt rows j).hl_open_comment = (scanRow s (rowAt rows j).render (seedAt rows j)).2

/-! ## Syntax selection by filename (editorSelectSyntaxHighlight, lines 490-515) -/

/-- `strchr(filename, '.')` (line 494): the suffix of the filename from
its FIRST dot, or none. -/
def extOf : List Char → Option (List Char)
  | [] => none
  | c :: rest => if c == '.' then some (c :: rest) else extOf rest

/-- One filematch pattern test (lines 500-502): a pattern beginning with
'.' matches exactly when it equals the extension from the first dot
(strcmp); any other pattern matches as a substring of the filename
(strstr). -/
def filematchOne (filename : List Char) (pat : List Char) : Bool :=
  if pat.head? == some '.' then
    match extOf filename with
    | some ext => ext == pat
    | none => false
  else (strstrIdx filename pat).isSome

/-- Whether any pattern of a descriptor matches the filename. -/
def matchesEntry (filename : List Char) (s : EditorSyntax) : Bool :=
  s.filematch.any (filematchOne filename)

/-- The descriptor editorSelectSyntaxHighlight selects: the first HLDB
entry one of whose patterns matches; none without a filename or match. -/
def editorSelectSyntaxHL (db : List EditorSyntax) (filename : Option (List Char)) :
    Option EditorSyntax :=
  match filename with
  | none => none
  | some fn => db.find? (matchesEntry fn)

/-- editorSelectSyntaxHighlight (lines 490-515) on the buffer: clear the
syntax; with a filename, select the first matching descriptor and re-run
editorUpdateSyntax on every row in order (lines 505-508; E.numrows is
fixed during the loop and every update preserves the row count). -/
def editorSelectSyntaxHighlight (db : List EditorSyntax) (filename : Option (List Char))
    (rows : List Erow) : Option EditorSyntax × List Erow :=
  match filename with
  | none => (none, rows)
  | some fn =>
    match db.find? (matchesEntry fn) with
    | some s =>
      (some s, (List.range rows.length).foldl
        (fun rs k => (editorUpdateSyntax (some s) rows.length (rows.length + 1) rs k).1) rows)
    | none => (none, rows)

/-- Modelled from the spec: the matcher the claim describes, with the
extension taken from the LAST dot in the filename.  Declared only to
compare against `filematchOne`, which the code builds on strchr (first
dot). -/
def specFilematchOne (filename : List Char) (pat : List Char) : Bool :=
  if pat.head? == some '.' then
    match filename.reverse.findIdx? (fun c => c == '.') with
    | some i => (filename.drop (filename.length - 1 - i)) == pat
    | none => false
  else (strstrIdx filename pat).isSome

/-! ## Incremental search (editorFindCallback, src/kilo.c lines 920-971) -/

/-- The keys the find callback distinguishes (line 933-944): ENTER, ESC,
the four arrows, and anything else (which restarts the search). -/
inductive FindKey where
  | enter : FindKey
  | esc : FindKey
  | arrowRight : FindKey
  | arrowDown : FindKey
  | arrowLeft : FindKey
  | arrowUp : FindKey
  | otherKey : FindKey
deriving DecidableEq, Repr

/-- The callback's static state (lines 921-925). -/
structure FindState where
  last_match : Int
  direction : Int
  saved_hl_line : Nat
  saved_hl : Option (List HL)
deriving DecidableEq, Repr

/-- The editor state the callback reads and writes. -/
structure FindEd where
  rows : List Erow
  cy : Nat
  cx : Nat
  rowoff : Nat
deriving DecidableEq, Repr

/-- `memset(&l[i], v, n)` for an in-bounds range (the callback's paint of
the match is always in bounds: the match lies inside render). -/
def setRange (l : List HL) (i n : Nat) (v : HL) : List HL :=
  l.mapIdx (fun j x => if i ≤ j ∧ j < i + n then v else x)

/-- The search walk (lines 947-970): advance `current` by `direction`,
wrap at the ends, and stop at the first row whose render contains the
query (strstr), returning the row index and the match offset.  The C
`for` loop tries `numrows` candidates, the fuel. -/
def findLoop (rows : List Erow) (query : List Char) (dir : Int) :
    Nat → Int → Option (Nat × Nat)
  | 0, _ => none
  | fuel + 1, current =>
    let cur1 := current + dir
    let cur2 : Int := if cur1 == -1 then (rows.length : Int) - 1
                      else if cur1 == (rows.length : Int) then 0 else cur1
    let idx := cur2.toNat
    match strstrIdx (rowAt rows idx).render query with
    | some off => some (idx, off)
    | none => findLoop rows query dir fuel cur2

/-- editorFindCallback (lines 920-971): restore the saved highlight
overlay; on ENTER/ESC reset and stop; otherwise set the direction from
the arrow key (any other key restarts from the top), walk the rows, and
on a hit move the cursor to the match (saving and overlaying that row's
highlight) and force a scroll with `rowoff = numrows`. -/
def editorFindCallback (query : List Char) (key : FindKey) (fs : FindState) (ed : FindEd) :
    FindState × FindEd :=
  let ed1 := match fs.saved_hl with
    | some hl =>
      { ed with rows := ed.rows.set fs.saved_hl_line { rowAt ed.rows fs.saved_hl_line with hl := hl } }
    | none => ed
  let fs1 := { fs with saved_hl := none }
  if key == FindKey.enter || key == FindKey.esc then
    ({ fs1 with last_match := -1, direction := 1 }, ed1)
  else
    let fs2 :=
      if key == FindKey.arrowRight || key == FindKey.arrowDown then
        { fs1 with direction := 1 }
      else if key == FindKey.arrowLeft || key == FindKey.arrowUp then
        { fs1 with direction := -1 }
      else { fs1 with last_match := -1, direction := 1 }
    let fs3 := if fs2.last_match == -1 then { fs2 with direction := 1 } else fs2
    match findLoop ed1.rows query fs3.direction ed1.rows.length fs3.last_match with
    | some (idx, off) =>
      ({ fs3 with
          last_match := (idx : Int),
          saved_hl_line := idx,
          saved_hl := some (rowAt ed1.rows idx).hl },
       { ed1 with
          cy := idx,
          cx := editorRowRxToCx (rowAt ed1.rows idx).chars off,
          rowoff := ed1.rows.length,
          rows := ed1.rows.set idx
            { rowAt ed1.rows idx with
              hl := setRange (rowAt ed1.rows idx).hl off query.length HL.hl_match } })
    | none => (fs3, ed1)

/-- One prompt keystroke as the search sees it. -/
def stepFind (query : List Char) (p : FindState × FindEd) (k : FindKey) :
    FindState × FindEd :=
  editorFindCallback query k p.1 p.2

/-- The rows' text is untouched by the find callback: same count, same
chars, same render everywhere (only `hl` overlays change). -/
def sameSkeleton (ed0 ed : FindEd) : Prop :=
  ed.rows.length = ed0.rows.length ∧
  ∀ j, (rowAt ed.rows j).chars = (rowAt ed0.rows j).chars ∧
       (rowAt ed.rows j).render = (rowAt ed0.rows j).render

/-- The cursor is either untouched or sits at the strstr (first) match of
the query in some row. -/
def cursorOk (ed0 : FindEd) (query : List Char) (ed : FindEd) : Prop :=
  (ed.cy = ed0.cy ∧ ed.cx = ed0.cx) ∨
  ∃ idx off, strstrIdx (rowAt ed0.rows idx).render query = some off ∧
    ed.cy = idx ∧ ed.cx = editorRowRxToCx (rowAt ed0.rows idx).chars off

/-! ## File I/O (src/kilo.c lines 818-868) -/

/-- The chunks of a file as getline delivers them (lines 855-864): maximal
pieces ending in '\n' (terminator included), plus a final unterminated
piece when the file does not end in a newline; an empty file yields no
chunks. -/
def splitChunks : List Char → List (List Char)
  | [] => []
  | c :: rest =>
    if c == '\n' then ['\n'] :: splitChunks rest
    else
      match splitChunks rest with
      | [] => [[c]]
      | l :: ls => (c :: l) :: ls

/-- The strip loop of editorOpen (lines 860-862): drop trailing '\n' and
'\r' bytes before inserting the row. -/
def stripLineEnd (l : List Char) : List Char :=
  (l.reverse.dropWhile (fun c => c == '\n' || c == '\r')).reverse

/-- The row contents editorOpen builds from a file's bytes. -/
def editorOpenRows (f : List Char) : List (List Char) :=
  (splitChunks f).map stripLineEnd

/-- editorRowsToString (lines 818-836): each row's chars followed by '\n'
(this is also exactly what editorSave writes on its success path). -/
def editorRowsToString (rows : List (List Char)) : List Char :=
  (rows.map (fun r => r ++ ['\n'])).flatten

/-- A getline chunk without its terminating newline, when it has one. -/
def chunkContent (l : List Char) : List Char :=
  if l.getLast? == some '\n' then l.dropLast else l

/-- No line of the file ends in '\r' before its newline: loading then
strips exactly the newline that saving puts back. -/
def goodFile (f : List Char) : Prop :=
  ∀ l ∈ splitChunks f, (chunkContent l).getLast? ≠ some '\r'

/-- A two-row buffer right after row 0's chars became "/*" — row 0 not yet
re-scanned (stale hl and flag), row 1 still consistent with row 0's old
flag.  Used as the concrete input of the C9 witness. -/
def c9rows : List Erow :=
  [{ idx := 0, chars := "/*".toList, render := "/*".toList,
     hl := [HL.hl_normal, HL.hl_normal], hl_open_comment := false },
   { idx := 1, chars := "x".toList, render := "x".toList,
     hl := [HL.hl_normal], hl_open_comment := false }]

end Kilo

namespace Kilo

/-! ## Theorems for C3, C4, C5, C8 -/

/-- C3: the claim as stated is false on the code: on the row `"\tX"`,
editorRowRxToCx returns 0 (not 1) for rx = 4 and 1 (not 2) for rx = 8 —
the chars index of the cell containing the render column, as the function's
own comment documents. -/
theorem C3_rxToCx_counterexample :
    ¬ (editorRowRxToCx ['\t', 'X'] 4 = 1 ∧ editorRowRxToCx ['\t', 'X'] 8 = 2) := by
  decide

/-- C3 (amended): on the row whose chars are TAB then 'X', the render is
eight spaces then 'X' (rsize 9), cx→rx maps 1 to 8 and 2 to 9, and rx→cx
maps 4 (inside the tab) to 0 and 8 (the cell of 'X') to 1. -/
theorem C3_tab_row_amended :
    renderChars ['\t', 'X'] = "        X".toList ∧
    (renderChars ['\t', 'X']).length = 9 ∧
    editorRowCxToRx ['\t', 'X'] 1 = 8 ∧
    editorRowCxToRx ['\t', 'X'] 2 = 9 ∧
    editorRowRxToCx ['\t', 'X'] 4 = 0 ∧
    editorRowRxToCx ['\t', 'X'] 8 = 1 := by
  decide

/-- C4: the claim as stated is false on the code: from dirty = 1 and
quit_times = 3, three CTRL-Q presses in a row still leave the editor
running (with quit_times 0), so "exactly two further presses terminate"
does not hold — a fourth press is needed. -/
theorem C4_quit_counterexample :
    runKeys ⟨1, 3, none⟩ [QuitKey.ctrlQ, QuitKey.ctrlQ, QuitKey.ctrlQ] =
      QuitResult.running ⟨1, 0, some 1⟩ := by
  decide

/-- C4 (amended): from dirty ≥ 1 and quit_times = 3, one CTRL-Q warns
(printing the pre-decrement count 3) and leaves quit_times 2 without
exiting; exactly three further CTRL-Q presses terminate with exit code 0
(the first three presses all warn); and any non-CTRL-Q key resets
quit_times to KILO_QUIT_TIMES = 3. -/
theorem C4_quit_guard_amended (d : Nat) (w : Option Nat) (hd : 0 < d) :
    processKeypressQuit ⟨d, 3, w⟩ QuitKey.ctrlQ = QuitResult.running ⟨d, 2, some 3⟩ ∧
    runKeys ⟨d, 3, w⟩ [QuitKey.ctrlQ, QuitKey.ctrlQ, QuitKey.ctrlQ] =
      QuitResult.running ⟨d, 0, some 1⟩ ∧
    runKeys ⟨d, 3, w⟩ [QuitKey.ctrlQ, QuitKey.ctrlQ, QuitKey.ctrlQ, QuitKey.ctrlQ] =
      QuitResult.exited 0 ∧
    (∀ s : QuitState, ∀ d' : Nat,
      processKeypressQuit s (QuitKey.otherKey d') =
        QuitResult.running ⟨d', KILO_QUIT_TIMES, s.warned⟩) := by
  have hd' : d ≠ 0 := Nat.pos_iff_ne_zero.mp hd
  refine ⟨?_, ?_, ?_, ?_⟩
  · simp [processKeypressQuit, hd']
  · simp [runKeys, processKeypressQuit, hd']
  · simp [runKeys, processKeypressQuit, hd']
  · intro s d'
    simp [processKeypressQuit]

/-- Witness for C4_quit_guard_amended at dirty = 1. -/
theorem C4_quit_guard_amended_witness :
    processKeypressQuit ⟨1, 3, none⟩ QuitKey.ctrlQ = QuitResult.running ⟨1, 2, some 3⟩ :=
  (C4_quit_guard_amended 1 none (by decide)).1

/-- C5: on the success path (open, exact-length truncate and a complete
write) editorSave zeroes `dirty` and reports "len bytes written to disk";
on every I/O failure path it leaves `dirty` and the buffer unchanged and
reports "Can't save! I/O error".  (The buffer rows are untouched on the
success path too.) -/
theorem C5_save_dirty_status (env : SaveEnv) (st : SaveState) (fn : List Char)
    (hfn : st.filename = some fn) :
    ((env.openOk = true ∧ env.truncOk = true ∧ env.writeRet = (bufLen st.rows : Int)) →
      (editorSave env st).dirty = 0 ∧ (editorSave env st).rows = st.rows ∧
      (editorSave env st).statusmsg = SaveStatus.bytesWritten (bufLen st.rows)) ∧
    (¬ (env.openOk = true ∧ env.truncOk = true ∧ env.writeRet = (bufLen st.rows : Int)) →
      (editorSave env st).dirty = st.dirty ∧ (editorSave env st).rows = st.rows ∧
      (editorSave env st).statusmsg = SaveStatus.cantSave) := by
  constructor
  · rintro ⟨h1, h2, h3⟩
    simp [editorSave, hfn, h1, h2, h3]
  · intro h
    rcases ho : env.openOk with _ | _
    · simp [editorSave, hfn, ho]
    · rcases ht : env.truncOk with _ | _
      · simp [editorSave, hfn, ho, ht]
      · have hw : ¬ env.writeRet = (bufLen st.rows : Int) := fun hw => h ⟨ho, ht, hw⟩
        simp [editorSave, hfn, ho, ht, hw]

/-- Witness for C5_save_dirty_status: a two-row buffer "h", "i"
(4 bytes with newlines) saved successfully. -/
theorem C5_save_dirty_status_witness :
    (editorSave ⟨true, true, 4⟩ ⟨[['h'], ['i']], 7, some ['t'], SaveStatus.noMsg⟩).dirty = 0 :=
  ((C5_save_dirty_status ⟨true, true, 4⟩ ⟨[['h'], ['i']], 7, some ['t'], SaveStatus.noMsg⟩
    ['t'] rfl).1 (by decide)).1

/-- C8: after editorRefreshScreen (which runs editorScroll first and then
only writes output), rx is the render column of the cursor (0 on the
virtual line past the last row), and with at least one screen row and
column the cursor lies inside the scrolled window. -/
theorem C8_refresh_viewport (s : VState)
    (hr : 1 ≤ s.screenrows) (hc : 1 ≤ s.screencols) :
    ((editorRefreshScreen s).cy < (editorRefreshScreen s).rows.length →
      (editorRefreshScreen s).rx =
        editorRowCxToRx ((editorRefreshScreen s).rows.getD (editorRefreshScreen s).cy [])
          (editorRefreshScreen s).cx) ∧
    ((editorRefreshScreen s).cy = (editorRefreshScreen s).rows.length →
      (editorRefreshScreen s).rx = 0) ∧
    (editorRefreshScreen s).rowoff ≤ (editorRefreshScreen s).cy ∧
    (editorRefreshScreen s).cy ≤ (editorRefreshScreen s).rowoff + (editorRefreshScreen s).screenrows - 1 ∧
    (editorRefreshScreen s).coloff ≤ (editorRefreshScreen s).rx ∧
    (editorRefreshScreen s).rx ≤ (editorRefreshScreen s).coloff + (editorRefreshScreen s).screencols - 1 := by
  unfold editorRefreshScreen editorScroll
  dsimp only
  refine ⟨fun h => by rw [if_pos h], fun h => by rw [if_neg (by omega)], ?_, ?_, ?_, ?_⟩ <;>
    (split_ifs <;> omega)

/-- Witness for C8_refresh_viewport: a screen of 2×2 cells, cursor on the
single row, offsets far off. -/
theorem C8_refresh_viewport_witness :
    (editorRefreshScreen ⟨0, 0, 5, 3, 7, 2, 2, [['a']]⟩).rowoff ≤
      (editorRefreshScreen ⟨0, 0, 5, 3, 7, 2, 2, [['a']]⟩).cy :=
  (C8_refresh_viewport ⟨0, 0, 5, 3, 7, 2, 2, [['a']]⟩ (by decide) (by decide)).2.2.1

/-! ### Positional access helpers -/

theorem rowAt_out (rows : List Erow) (j : Nat) (h : rows.length ≤ j) :
    rowAt rows j = defaultErow := by
  simp [rowAt, List.getD_eq_getElem?_getD, List.getElem?_eq_none h]

theorem rowAt_set (rows : List Erow) (i j : Nat) (v : Erow) :
    rowAt (rows.set i v) j = if i = j ∧ i < rows.length then v else rowAt rows j := by
  by_cases hij : i = j
  · subst hij
    by_cases hi : i < rows.length
    · simp [rowAt, List.getD_eq_getElem?_getD, List.getElem?_set_self hi, hi]
    · rw [List.set_eq_of_length_le (by omega)]
      simp [hi]
  · simp [rowAt, List.getD_eq_getElem?_getD, List.getElem?_set_ne hij, hij]

theorem rowAt_append_left (l1 l2 : List Erow) (j : Nat) (h : j < l1.length) :
    rowAt (l1 ++ l2) j = rowAt l1 j := by
  simp [rowAt, List.getD_eq_getElem?_getD, List.getElem?_append_left h]

theorem rowAt_append_right (l1 l2 : List Erow) (j : Nat) (h : l1.length ≤ j) :
    rowAt (l1 ++ l2) j = rowAt l2 (j - l1.length) := by
  simp [rowAt, List.getD_eq_getElem?_getD, List.getElem?_append_right h]

theorem rowAt_take (l : List Erow) (n j : Nat) (h : j < n) :
    rowAt (l.take n) j = rowAt l j := by
  simp [rowAt, List.getD_eq_getElem?_getD, List.getElem?_take_of_lt h]

theorem rowAt_drop (l : List Erow) (n j : Nat) :
    rowAt (l.drop n) j = rowAt l (n + j) := by
  simp [rowAt, List.getD_eq_getElem?_getD, List.getElem?_drop]

theorem rowAt_map (f : Erow → Erow) (l : List Erow) (j : Nat) (h : j < l.length) :
    rowAt (l.map f) j = f (rowAt l j) := by
  simp [rowAt, List.getD_eq_getElem?_getD, List.getElem?_map,
    List.getElem?_eq_getElem h]

theorem rowAt_cons_zero (v : Erow) (l : List Erow) : rowAt (v :: l) 0 = v := rfl

theorem rowAt_cons_succ (v : Erow) (l : List Erow) (j : Nat) :
    rowAt (v :: l) (j + 1) = rowAt l j := rfl

/-! ### editorUpdateSyntax: shape preservation -/

/-- editorUpdateSyntax keeps the number of rows. -/
theorem editorUpdateSyntax_length (syn : Option EditorSyntax) (n : Nat) :
    ∀ fuel rows i, ((editorUpdateSyntax syn n fuel rows i).1).length = rows.length := by
  intro fuel
  induction fuel with
  | zero => intro rows i; rfl
  | succ fuel ih =>
    intro rows i
    unfold editorUpdateSyntax
    cases syn with
    | none => simp
    | some s =>
      dsimp only
      split
      · rw [ih]; simp
      · simp

/-- editorUpdateSyntax touches only `hl` and `hl_open_comment`: every
row's idx, chars and render are unchanged, and rows below `i` are
untouched entirely. -/
theorem editorUpdateSyntax_skeleton (syn : Option EditorSyntax) (n : Nat) :
    ∀ fuel rows i j,
      (rowAt (editorUpdateSyntax syn n fuel rows i).1 j).idx = (rowAt rows j).idx ∧
      (rowAt (editorUpdateSyntax syn n fuel rows i).1 j).chars = (rowAt rows j).chars ∧
      (rowAt (editorUpdateSyntax syn n fuel rows i).1 j).render = (rowAt rows j).render ∧
      (j < i → rowAt (editorUpdateSyntax syn n fuel rows i).1 j = rowAt rows j) := by
  intro fuel
  induction fuel with
  | zero => intro rows i j; exact ⟨rfl, rfl, rfl, fun _ => rfl⟩
  | succ fuel ih =>
    intro rows i j
    unfold editorUpdateSyntax
    cases syn with
    | none =>
      dsimp only
      rw [rowAt_set]
      by_cases hij : i = j ∧ i < rows.length
      · rw [if_pos hij]
        obtain ⟨rfl, _⟩ := hij
        exact ⟨rfl, rfl, rfl, fun hc => absurd hc (by omega)⟩
      · rw [if_neg hij]
        exact ⟨rfl, rfl, rfl, fun _ => rfl⟩
    | some s =>
      dsimp only
      split
      · have h2 := ih (rows.set i
          { rowAt rows i with
            hl := (scanRow s (rowAt rows i).render
              (decide (0 < i) && (rowAt rows (i - 1)).hl_open_comment)).1,
            hl_open_comment := (scanRow s (rowAt rows i).render
              (decide (0 < i) && (rowAt rows (i - 1)).hl_open_comment)).2 }) (i + 1) j
        rw [rowAt_set] at h2
        by_cases hij : i = j ∧ i < rows.length
        · rw [if_pos hij] at h2
          obtain ⟨rfl, _⟩ := hij
          exact ⟨h2.1, h2.2.1, h2.2.2.1, fun hc => absurd hc (by omega)⟩
        · rw [if_neg hij] at h2
          exact ⟨h2.1, h2.2.1, h2.2.2.1, fun hc => h2.2.2.2 (by omega)⟩
      · rw [rowAt_set]
        by_cases hij : i = j ∧ i < rows.length
        · rw [if_pos hij]
          obtain ⟨rfl, _⟩ := hij
          exact ⟨rfl, rfl, rfl, fun hc => absurd hc (by omega)⟩
        · rw [if_neg hij]
          exact ⟨rfl, rfl, rfl, fun _ => rfl⟩

/-- editorUpdateRow keeps the number of rows. -/
theorem editorUpdateRow_length (syn : Option EditorSyntax) (n : Nat) (rows : List Erow) (i : Nat) :
    (editorUpdateRow syn n rows i).length = rows.length := by
  unfold editorUpdateRow
  rw [editorUpdateSyntax_length]
  simp

/-- editorUpdateRow keeps every row's idx and chars. -/
theorem editorUpdateRow_idx_chars (syn : Option EditorSyntax) (n : Nat) (rows : List Erow)
    (i j : Nat) :
    (rowAt (editorUpdateRow syn n rows i) j).idx = (rowAt rows j).idx ∧
    (rowAt (editorUpdateRow syn n rows i) j).chars = (rowAt rows j).chars := by
  unfold editorUpdateRow
  have h := editorUpdateSyntax_skeleton syn n (n + 1)
    (rows.set i { rowAt rows i with render := renderChars (rowAt rows i).chars }) i j
  rw [rowAt_set] at h
  by_cases hij : i = j ∧ i < rows.length
  · rw [if_pos hij] at h
    obtain ⟨rfl, _⟩ := hij
    exact ⟨h.1, h.2.1⟩
  · rw [if_neg hij] at h
    exact ⟨h.1, h.2.1⟩

/-! ### C6: the idx invariant -/

theorem applyOp_idxOk (buf : EBuf) (h : idxOk buf.rows) (op : BufOp) :
    idxOk (applyOp buf op).rows := by
  cases op with
  | insertRow i s =>
    simp only [applyOp, editorInsertRow]
    split
    · exact h
    · rename_i hle
      push_neg at hle
      intro j hj
      rw [editorUpdateRow_length] at hj
      have hlen : (buf.rows.take i ++
          ({ idx := i, chars := s, render := [], hl := [], hl_open_comment := false } : Erow) ::
            (buf.rows.drop i).map (fun r : Erow => { r with idx := r.idx + 1 })).length =
          buf.rows.length + 1 := by
        simp
        omega
      rw [(editorUpdateRow_idx_chars buf.syn buf.rows.length _ i j).1]
      have htake : (buf.rows.take i).length = i := by simp; omega
      by_cases hji : j < i
      · rw [rowAt_append_left _ _ _ (by omega), rowAt_take _ _ _ hji]
        exact h j (by omega)
      · push_neg at hji
        rw [rowAt_append_right _ _ _ (by omega), htake]
        by_cases hjeq : j = i
        · subst hjeq
          simp [rowAt_cons_zero]
        · have hj1 : j - i = (j - i - 1) + 1 := by omega
          rw [hj1, rowAt_cons_succ]
          rw [rowAt_map _ _ _ (by simp; omega)]
          rw [rowAt_drop]
          have : i + (j - i - 1) = j - 1 := by omega
          rw [this]
          have := h (j - 1) (by omega)
          simp [this]
          omega
  | delRow i =>
    simp only [applyOp, editorDelRow]
    split
    · rename_i hlt
      intro j hj
      have hlen : (buf.rows.take i ++
          (buf.rows.drop (i + 1)).map (fun r : Erow => { r with idx := r.idx - 1 })).length =
          buf.rows.length - 1 := by
        simp
        omega
      rw [hlen] at hj
      have htake : (buf.rows.take i).length = i := by simp; omega
      by_cases hji : j < i
      · rw [rowAt_append_left _ _ _ (by omega), rowAt_take _ _ _ hji]
        exact h j (by omega)
      · push_neg at hji
        rw [rowAt_append_right _ _ _ (by omega), htake]
        rw [rowAt_map _ _ _ (by simp; omega)]
        rw [rowAt_drop]
        have heq : i + 1 + (j - i) = j + 1 := by omega
        rw [heq]
        have := h (j + 1) (by omega)
        simp [this]
    · exact h
  | rowInsertChar r i c =>
    simp only [applyOp, editorRowInsertChar]
    split
    · intro j hj
      rw [editorUpdateRow_length, List.length_set] at hj
      rw [(editorUpdateRow_idx_chars _ _ _ r j).1, rowAt_set]
      split
      · rename_i hcond
        obtain ⟨hrj, _⟩ := hcond
        subst hrj
        exact h r hj
      · exact h j hj
    · exact h
  | rowDelChar r i =>
    simp only [applyOp, editorRowDelChar]
    split
    · split
      · intro j hj
        rw [editorUpdateRow_length, List.length_set] at hj
        rw [(editorUpdateRow_idx_chars _ _ _ r j).1, rowAt_set]
        split
        · rename_i hcond
          obtain ⟨hrj, _⟩ := hcond
          subst hrj
          exact h r hj
        · exact h j hj
      · exact h
    · exact h
  | rowAppendString r s =>
    simp only [applyOp, editorRowAppendString]
    split
    · intro j hj
      rw [editorUpdateRow_length, List.length_set] at hj
      rw [(editorUpdateRow_idx_chars _ _ _ r j).1, rowAt_set]
      split
      · rename_i hcond
        obtain ⟨hrj, _⟩ := hcond
        subst hrj
        exact h r hj
      · exact h j hj
    · exact h

/-- C6: every sequence of buffer operations preserves rows[i].idx == i:
editorInsertRow renumbers the shifted rows and stamps the new one,
editorDelRow renumbers the shifted rows, and the char-level operations
never touch idx. -/
theorem C6_idx_invariant (buf : EBuf) (h : idxOk buf.rows) (ops : List BufOp) :
    idxOk (applyOps buf ops).rows := by
  induction ops generalizing buf with
  | nil => exact h
  | cons op ops ih =>
    rw [applyOps, List.foldl_cons]
    exact ih (applyOp buf op) (applyOp_idxOk buf h op)

/-- Witness for C6_idx_invariant: inserts, a char edit and a delete on an
initially empty buffer with C highlighting. -/
theorem C6_idx_invariant_witness :
    idxOk (applyOps ⟨[], some cSyntax, 0⟩
      [BufOp.insertRow 0 ("int a".toList), BufOp.insertRow 1 ("/* x".toList),
       BufOp.rowInsertChar 0 1 'q', BufOp.delRow 0]).rows :=
  C6_idx_invariant ⟨[], some cSyntax, 0⟩ (by intro i hi; simp at hi)
    [BufOp.insertRow 0 ("int a".toList), BufOp.insertRow 1 ("/* x".toList),
     BufOp.rowInsertChar 0 1 'q', BufOp.delRow 0]

/-! ### The scan paints exactly rsize highlight bytes -/

/-- A successful NUL-free, nonempty strncmp match lies inside the haystack. -/
theorem strncmpEq_le (hay : List Char) :
    ∀ (pat : List Char) (i : Nat), strncmpEq hay i pat = true →
      pat ≠ [] → (∀ c ∈ pat, c ≠ nulChar) → i + pat.length ≤ hay.length := by
  intro pat
  induction pat with
  | nil => intro i _ hne _; exact absurd rfl hne
  | cons p ps ih =>
    intro i h _ hnul
    rw [strncmpEq, Bool.and_eq_true] at h
    obtain ⟨h1, h2⟩ := h
    have hip : i < hay.length := by
      by_contra hge
      push_neg at hge
      have hc : charAt hay i = nulChar := by
        simp [charAt, List.getD_eq_getElem?_getD, List.getElem?_eq_none hge]
      have hp : p ≠ nulChar := hnul p (List.mem_cons_self p ps)
      rw [hc] at h1
      exact hp (beq_iff_eq.mp h1).symm
    cases ps with
    | nil => simpa using hip
    | cons q qs =>
      have hrec := ih (i + 1) h2 (by simp) (fun c hc => hnul c (List.mem_cons_of_mem p hc))
      simp only [List.length_cons] at hrec ⊢
      omega

/-- A keyword hit has positive length and lies inside the row. -/
theorem findKeyword_bounds (render : List Char) (i : Nat) :
    ∀ (kws : List (List Char)) (klen : Nat) (kw2 : Bool),
      (kws.all (fun kw => kw.all (· != nulChar))) = true →
      findKeyword render i kws = some (klen, kw2) →
      0 < klen ∧ i + klen ≤ render.length := by
  intro kws
  induction kws with
  | nil => intro klen kw2 _ h; simp [findKeyword] at h
  | cons kw rest ih =>
    intro klen kw2 hwf h
    rw [List.all_cons, Bool.and_eq_true] at hwf
    have hnulkw : ∀ c ∈ kw, c ≠ nulChar := by
      have hall := hwf.1
      rw [List.all_eq_true] at hall
      intro c hc
      simpa using hall c hc
    rw [findKeyword] at h
    cases hb : kw.getLast? == some '|' with
    | false =>
      simp only [hb, Bool.false_eq_true, if_false] at h
      split at h
      · rename_i hguard
        simp only [Option.some.injEq, Prod.mk.injEq] at h
        obtain ⟨rfl, rfl⟩ := h
        have hk0 : kw.length ≠ 0 := by
          simp only [Bool.and_eq_true, bne_iff_ne, ne_eq] at hguard
          tauto
        have hcmp : strncmpEq render i kw = true := by
          simp only [Bool.and_eq_true] at hguard
          tauto
        have hne : kw ≠ [] := by
          intro hemp
          rw [hemp] at hk0
          exact hk0 rfl
        exact ⟨Nat.pos_of_ne_zero hk0, strncmpEq_le render kw i hcmp hne hnulkw⟩
      · exact ih klen kw2 hwf.2 h
    | true =>
      simp only [hb, eq_self_iff_true, if_true] at h
      split at h
      · rename_i hguard
        simp only [Option.some.injEq, Prod.mk.injEq] at h
        obtain ⟨rfl, rfl⟩ := h
        have hk0 : kw.length - 1 ≠ 0 := by
          simp only [Bool.and_eq_true, bne_iff_ne, ne_eq] at hguard
          tauto
        have hcmp : strncmpEq render i kw.dropLast = true := by
          simp only [Bool.and_eq_true] at hguard
          tauto
        have hne : kw.dropLast ≠ [] := by
          intro hemp
          apply hk0
          have hlen2 := List.length_dropLast kw
          rw [hemp] at hlen2
          simpa using hlen2.symm
        have hnul2 : ∀ c ∈ kw.dropLast, c ≠ nulChar :=
          fun c hc => hnulkw c (List.dropLast_subset kw hc)
        have hle := strncmpEq_le render kw.dropLast i hcmp hne hnul2
        rw [List.length_dropLast] at hle
        exact ⟨Nat.pos_of_ne_zero hk0, hle⟩
      · exact ih klen kw2 hwf.2 h

/-- With enough fuel, a well-formed syntax, and `acc` filled up to `i`, the
scan loop returns exactly `render.length` highlight bytes: every branch
paints precisely the positions it advances over, and the single-line
comment break paints up to the end of the row. -/
theorem scanLoop_length (s : EditorSyntax) (render : List Char) (hwf : synWF s = true) :
    ∀ (fuel i : Nat) (prevSep : Bool) (inString : Option Char) (inComment : Bool) (acc : List HL),
      acc.length = i → i ≤ render.length → render.length ≤ fuel + i →
      ((scanLoop s render fuel i prevSep inString inComment acc).1).length = render.length := by
  have hwf3 : (s.keywords.all (fun kw => kw.all (· != nulChar))) = true := by
    unfold synWF at hwf
    rw [Bool.and_eq_true, Bool.and_eq_true] at hwf
    exact hwf.2
  have hmcs : ∀ c ∈ s.mcs, c ≠ nulChar := by
    unfold synWF at hwf
    rw [Bool.and_eq_true, Bool.and_eq_true] at hwf
    have := hwf.1.1
    rw [List.all_eq_true] at this
    intro c hc
    simpa using this c hc
  have hmce : ∀ c ∈ s.mce, c ≠ nulChar := by
    unfold synWF at hwf
    rw [Bool.and_eq_true, Bool.and_eq_true] at hwf
    have := hwf.1.2
    rw [List.all_eq_true] at this
    intro c hc
    simpa using this c hc
  intro fuel
  induction fuel with
  | zero =>
    intro i prevSep inString inComment acc hacc hle hfi
    rw [scanLoop]
    dsimp only
    omega
  | succ fuel ih =>
    intro i prevSep inString inComment acc hacc hle hfi
    rw [scanLoop]
    by_cases hi : i < render.length
    · rw [if_pos hi]
      dsimp only
      split
      · -- single-line comment: paint to the end of the row and break
        simp only [List.length_append, List.length_replicate]
        omega
      · split
        · -- in a multi-line comment
          split
          · -- the close marker matches at i
            rename_i hml hclose
            have hmce_ne : s.mce ≠ [] := by
              simp only [Bool.and_eq_true, bne_iff_ne, ne_eq] at hml
              tauto
            have hbound := strncmpEq_le render s.mce i hclose hmce_ne hmce
            have hpos : 0 < s.mce.length := List.length_pos.mpr hmce_ne
            exact ih (i + s.mce.length) _ _ _ _ (by simp; omega) (by omega) (by omega)
          · exact ih (i + 1) _ _ _ _ (by simp; omega) (by omega) (by omega)
        · split
          · -- the open marker matches at i
            rename_i hopen
            have hmcs_ne : s.mcs ≠ [] := by
              simp only [Bool.and_eq_true, bne_iff_ne, ne_eq] at hopen
              tauto
            have hcmp : strncmpEq render i s.mcs = true := by
              simp only [Bool.and_eq_true] at hopen
              tauto
            have hbound := strncmpEq_le render s.mcs i hcmp hmcs_ne hmcs
            have hpos : 0 < s.mcs.length := List.length_pos.mpr hmcs_ne
            exact ih (i + s.mcs.length) _ _ _ _ (by simp; omega) (by omega) (by omega)
          · split
            · -- inside a string
              split
              · -- backslash escape: advance two
                rename_i hesc
                have h2 : i + 1 < render.length := by
                  simp only [Bool.and_eq_true, decide_eq_true_eq] at hesc
                  tauto
                exact ih (i + 2) _ _ _ _ (by simp; omega) (by omega) (by omega)
              · exact ih (i + 1) _ _ _ _ (by simp; omega) (by omega) (by omega)
            · split
              · -- a number
                exact ih (i + 1) _ _ _ _ (by simp; omega) (by omega) (by omega)
              · split
                · -- a keyword hit
                  rename_i klen kw2 hkw
                  have hsome : findKeyword render i s.keywords = some (klen, kw2) := by
                    split at hkw
                    · exact hkw
                    · exact absurd hkw (by simp)
                  have hbounds := findKeyword_bounds render i s.keywords klen kw2 hwf3 hsome
                  exact ih (i + klen) _ _ _ _ (by simp; omega) (by omega) (by omega)
                · exact ih (i + 1) _ _ _ _ (by simp; omega) (by omega) (by omega)
    · rw [if_neg hi]
      dsimp only
      omega

/-- scanRow returns one highlight byte per render byte. -/
theorem scanRow_length (s : EditorSyntax) (render : List Char) (inComment : Bool)
    (hwf : synWF s = true) :
    ((scanRow s render inComment).1).length = render.length :=
  scanLoop_length s render hwf render.length 0 true none inComment [] rfl (by omega) (by omega)

/-- editorUpdateSyntax regenerates `hl` with exactly rsize entries on every
row it visits and leaves the others alone: the hl-length invariant, broken
at most at row `i` beforehand, holds everywhere afterwards. -/
theorem editorUpdateSyntax_hl (syn : Option EditorSyntax) (hwf : synWFopt syn = true) :
    ∀ (fuel n : Nat) (rows : List Erow) (i : Nat),
      n < fuel + i → i ≤ n → n ≤ rows.length →
      (∀ j, j < rows.length → j ≠ i →
        (rowAt rows j).hl.length = (rowAt rows j).render.length) →
      ∀ j, j < rows.length →
        (rowAt (editorUpdateSyntax syn n fuel rows i).1 j).hl.length =
          (rowAt (editorUpdateSyntax syn n fuel rows i).1 j).render.length := by
  intro fuel
  induction fuel with
  | zero => intro n rows i h1 h2 h3 hpre j hj; omega
  | succ fuel ih =>
    intro n rows i h1 h2 h3 hpre j hj
    unfold editorUpdateSyntax
    cases syn with
    | none =>
      dsimp only
      rw [rowAt_set]
      by_cases hij : i = j ∧ i < rows.length
      · rw [if_pos hij]
        simp
      · rw [if_neg hij]
        have hne : j ≠ i := by
          intro he
          exact hij ⟨he.symm, he ▸ hj⟩
        exact hpre j hj hne
    | some s =>
      have hwfs : synWF s = true := by simpa [synWFopt] using hwf
      dsimp only
      split
      · rename_i hguard
        have hi1 : i + 1 < n := by
          simp only [Bool.and_eq_true, decide_eq_true_eq] at hguard
          exact hguard.2
        have hpre2 : ∀ j, j < (rows.set i
            { rowAt rows i with
              hl := (scanRow s (rowAt rows i).render
                (decide (0 < i) && (rowAt rows (i - 1)).hl_open_comment)).1,
              hl_open_comment := (scanRow s (rowAt rows i).render
                (decide (0 < i) && (rowAt rows (i - 1)).hl_open_comment)).2 }).length →
            j ≠ i + 1 →
            (rowAt (rows.set i
              { rowAt rows i with
                hl := (scanRow s (rowAt rows i).render
                  (decide (0 < i) && (rowAt rows (i - 1)).hl_open_comment)).1,
                hl_open_comment := (scanRow s (rowAt rows i).render
                  (decide (0 < i) && (rowAt rows (i - 1)).hl_open_comment)).2 }) j).hl.length =
            (rowAt (rows.set i
              { rowAt rows i with
                hl := (scanRow s (rowAt rows i).render
                  (decide (0 < i) && (rowAt rows (i - 1)).hl_open_comment)).1,
                hl_open_comment := (scanRow s (rowAt rows i).render
                  (decide (0 < i) && (rowAt rows (i - 1)).hl_open_comment)).2 }) j).render.length := by
          intro j' hj' _
          rw [List.length_set] at hj'
          rw [rowAt_set]
          by_cases hij : i = j' ∧ i < rows.length
          · rw [if_pos hij]
            exact scanRow_length s (rowAt rows i).render _ hwfs
          · rw [if_neg hij]
            have hne : j' ≠ i := by
              intro he
              exact hij ⟨he.symm, he ▸ hj'⟩
            exact hpre j' hj' hne
        have := ih n _ (i + 1) (by omega) (by omega) (by simpa using h3) hpre2 j
          (by simpa using hj)
        exact this
      · dsimp only
        rw [rowAt_set]
        by_cases hij : i = j ∧ i < rows.length
        · rw [if_pos hij]
          exact scanRow_length s (rowAt rows i).render _ hwfs
        · rw [if_neg hij]
          have hne : j ≠ i := by
            intro he
            exact hij ⟨he.symm, he ▸ hj⟩
          exact hpre j hj hne

/-- editorUpdateRow restores the hl-length invariant, given it holds away
from the updated row. -/
theorem editorUpdateRow_hl (syn : Option EditorSyntax) (hwf : synWFopt syn = true)
    (n : Nat) (rows : List Erow) (i : Nat) (hin : i ≤ n) (hn : n ≤ rows.length)
    (hpre : ∀ j, j < rows.length → j ≠ i →
      (rowAt rows j).hl.length = (rowAt rows j).render.length) :
    ∀ j, j < rows.length →
      (rowAt (editorUpdateRow syn n rows i) j).hl.length =
        (rowAt (editorUpdateRow syn n rows i) j).render.length := by
  intro j hj
  unfold editorUpdateRow
  apply editorUpdateSyntax_hl syn hwf (n + 1) n _ i (by omega) hin (by simpa using hn)
    ?_ j (by simpa using hj)
  intro j' hj' hne
  rw [List.length_set] at hj'
  rw [rowAt_set]
  by_cases hij : i = j' ∧ i < rows.length
  · exact absurd hij.1.symm hne
  · rw [if_neg hij]
    have hne2 : j' ≠ i := fun he => hij ⟨he.symm, he ▸ hj'⟩
    exact hpre j' hj' hne2

theorem applyOp_syn (buf : EBuf) (op : BufOp) : (applyOp buf op).syn = buf.syn := by
  cases op with
  | insertRow i s =>
    simp only [applyOp, editorInsertRow]
    split <;> rfl
  | delRow i =>
    simp only [applyOp, editorDelRow]
    split <;> rfl
  | rowInsertChar r i c =>
    simp only [applyOp, editorRowInsertChar]
    split <;> rfl
  | rowDelChar r i =>
    simp only [applyOp, editorRowDelChar]
    split
    · split <;> rfl
    · rfl
  | rowAppendString r s =>
    simp only [applyOp, editorRowAppendString]
    split <;> rfl

theorem applyOp_hlOk (buf : EBuf) (hwf : synWFopt buf.syn = true) (h : hlOk buf.rows)
    (op : BufOp) : hlOk (applyOp buf op).rows := by
  cases op with
  | insertRow i s =>
    simp only [applyOp, editorInsertRow]
    split
    · exact h
    · rename_i hle
      push_neg at hle
      intro j hj
      rw [editorUpdateRow_length] at hj
      have hlen1 : (buf.rows.take i ++
          ({ idx := i, chars := s, render := [], hl := [], hl_open_comment := false } : Erow) ::
            (buf.rows.drop i).map (fun r : Erow => { r with idx := r.idx + 1 })).length =
          buf.rows.length + 1 := by
        simp
        omega
      apply editorUpdateRow_hl buf.syn hwf buf.rows.length _ i hle (by omega) ?_ j (by omega)
      intro j' hj' hne
      rw [hlen1] at hj'
      have htake : (buf.rows.take i).length = i := by simp; omega
      by_cases hji : j' < i
      · rw [rowAt_append_left _ _ _ (by omega), rowAt_take _ _ _ hji]
        exact h j' (by omega)
      · push_neg at hji
        have hji2 : i < j' := by omega
        rw [rowAt_append_right _ _ _ (by omega), htake]
        have hj1 : j' - i = (j' - i - 1) + 1 := by omega
        rw [hj1, rowAt_cons_succ]
        rw [rowAt_map _ _ _ (by simp; omega)]
        rw [rowAt_drop]
        exact h (i + (j' - i - 1)) (by omega)
  | delRow i =>
    simp only [applyOp, editorDelRow]
    split
    · rename_i hlt
      intro j hj
      have hlen1 : (buf.rows.take i ++
          (buf.rows.drop (i + 1)).map (fun r : Erow => { r with idx := r.idx - 1 })).length =
          buf.rows.length - 1 := by
        simp
        omega
      rw [hlen1] at hj
      have htake : (buf.rows.take i).length = i := by simp; omega
      by_cases hji : j < i
      · rw [rowAt_append_left _ _ _ (by omega), rowAt_take _ _ _ hji]
        exact h j (by omega)
      · push_neg at hji
        rw [rowAt_append_right _ _ _ (by omega), htake]
        rw [rowAt_map _ _ _ (by simp; omega)]
        rw [rowAt_drop]
        exact h (i + 1 + (j - i)) (by omega)
    · exact h
  | rowInsertChar r i c =>
    simp only [applyOp, editorRowInsertChar]
    split
    · rename_i hr
      intro j hj
      rw [editorUpdateRow_length, List.length_set] at hj
      apply editorUpdateRow_hl buf.syn hwf buf.rows.length _ r (by omega)
        (by simp) ?_ j (by simpa using hj)
      intro j' hj' hne
      rw [List.length_set] at hj'
      rw [rowAt_set, if_neg (fun hc => hne hc.1.symm)]
      exact h j' hj'
    · exact h
  | rowDelChar r i =>
    simp only [applyOp, editorRowDelChar]
    split
    · rename_i hr
      split
      · intro j hj
        rw [editorUpdateRow_length, List.length_set] at hj
        apply editorUpdateRow_hl buf.syn hwf buf.rows.length _ r (by omega)
          (by simp) ?_ j (by simpa using hj)
        intro j' hj' hne
        rw [List.length_set] at hj'
        rw [rowAt_set, if_neg (fun hc => hne hc.1.symm)]
        exact h j' hj'
      · exact h
    · exact h
  | rowAppendString r s =>
    simp only [applyOp, editorRowAppendString]
    split
    · rename_i hr
      intro j hj
      rw [editorUpdateRow_length, List.length_set] at hj
      apply editorUpdateRow_hl buf.syn hwf buf.rows.length _ r (by omega)
        (by simp) ?_ j (by simpa using hj)
      intro j' hj' hne
      rw [List.length_set] at hj'
      rw [rowAt_set, if_neg (fun hc => hne hc.1.symm)]
      exact h j' hj'
    · exact h

/-- C7: every buffer operation regenerates `render` and `hl` together
(editorUpdateRow then editorUpdateSyntax), so rows[i].hl.length ==
rows[i].render.length survives every mutation — for the selected language
(or none), whose markers and keywords are NUL-free as in HLDB. -/
theorem C7_hl_length_invariant (buf : EBuf) (hwf : synWFopt buf.syn = true)
    (h : hlOk buf.rows) (ops : List BufOp) : hlOk (applyOps buf ops).rows := by
  induction ops generalizing buf with
  | nil => exact h
  | cons op ops ih =>
    rw [applyOps, List.foldl_cons]
    exact ih (applyOp buf op) (by rw [applyOp_syn]; exact hwf) (applyOp_hlOk buf hwf h op)

/-- Witness for C7_hl_length_invariant: an insert, edits and a delete on
an initially empty buffer with C highlighting. -/
theorem C7_hl_length_invariant_witness :
    hlOk (applyOps ⟨[], some cSyntax, 0⟩
      [BufOp.insertRow 0 ("/* a".toList), BufOp.insertRow 1 ("b */".toList),
       BufOp.rowAppendString 0 (" x".toList), BufOp.rowDelChar 0 0]).rows :=
  C7_hl_length_invariant ⟨[], some cSyntax, 0⟩ (by decide) (by intro i hi; simp at hi)
    [BufOp.insertRow 0 ("/* a".toList), BufOp.insertRow 1 ("b */".toList),
     BufOp.rowAppendString 0 (" x".toList), BufOp.rowDelChar 0 0]

/-! ### C9: the multi-line-comment propagation chain -/

/-- The chain makes at most n - i editorUpdateSyntax calls. -/
theorem editorUpdateSyntax_count (s : EditorSyntax) :
    ∀ (fuel n : Nat) (rows : List Erow) (i : Nat), i < n → n ≤ fuel + i →
      (editorUpdateSyntax (some s) n fuel rows i).2 ≤ n - i := by
  intro fuel
  induction fuel with
  | zero =>
    intro n rows i h1 h2
    unfold editorUpdateSyntax
    dsimp only
    omega
  | succ fuel ih =>
    intro n rows i h1 h2
    unfold editorUpdateSyntax
    dsimp only
    split
    · rename_i hguard
      have hi1 : i + 1 < n := by
        simp only [Bool.and_eq_true, decide_eq_true_eq] at hguard
        exact hguard.2
      have hrec := ih n (rows.set i
        { idx := (rowAt rows i).idx, chars := (rowAt rows i).chars,
          render := (rowAt rows i).render,
          hl := (scanRow s (rowAt rows i).render
            (decide (0 < i) && (rowAt rows (i - 1)).hl_open_comment)).1,
          hl_open_comment := (scanRow s (rowAt rows i).render
            (decide (0 < i) && (rowAt rows (i - 1)).hl_open_comment)).2 }) (i + 1) hi1 (by omega)
      dsimp only
      omega
    · dsimp only
      omega

/-- After the chain runs at a row whose neighbours were all consistent,
every row of the buffer is consistent with its predecessor's flag: the
chain recomputes row i from its (unchanged) seed, follows flag changes
into the next row, and when it stops the next row's stored state already
derives from the very flag value just written. -/
theorem editorUpdateSyntax_consistent (s : EditorSyntax) :
    ∀ (fuel : Nat) (rows : List Erow) (i : Nat),
      rows.length < fuel + i → i < rows.length →
      (∀ j, j < rows.length → j ≠ i → rowConsistent s rows j) →
      ∀ j, j < rows.length →
        rowConsistent s (editorUpdateSyntax (some s) rows.length fuel rows i).1 j := by
  intro fuel
  induction fuel with
  | zero => intro rows i h1 h2 hpre j hj; omega
  | succ fuel ih =>
    intro rows i h1 h2 hpre j hj
    unfold editorUpdateSyntax
    dsimp only
    have hvi : rowAt (rows.set i
        { rowAt rows i with
          hl := (scanRow s (rowAt rows i).render
            (decide (0 < i) && (rowAt rows (i - 1)).hl_open_comment)).1,
          hl_open_comment := (scanRow s (rowAt rows i).render
            (decide (0 < i) && (rowAt rows (i - 1)).hl_open_comment)).2 }) i =
        { rowAt rows i with
          hl := (scanRow s (rowAt rows i).render
            (decide (0 < i) && (rowAt rows (i - 1)).hl_open_comment)).1,
          hl_open_comment := (scanRow s (rowAt rows i).render
            (decide (0 < i) && (rowAt rows (i - 1)).hl_open_comment)).2 } := by
      rw [rowAt_set, if_pos ⟨rfl, h2⟩]
    have hvo : ∀ k, k ≠ i → rowAt (rows.set i
        { rowAt rows i with
          hl := (scanRow s (rowAt rows i).render
            (decide (0 < i) && (rowAt rows (i - 1)).hl_open_comment)).1,
          hl_open_comment := (scanRow s (rowAt rows i).render
            (decide (0 < i) && (rowAt rows (i - 1)).hl_open_comment)).2 }) k = rowAt rows k := by
      intro k hk
      rw [rowAt_set, if_neg (fun hc => hk hc.1.symm)]
    have hseed : ∀ k, k ≠ i + 1 → seedAt (rows.set i
        { rowAt rows i with
          hl := (scanRow s (rowAt rows i).render
            (decide (0 < i) && (rowAt rows (i - 1)).hl_open_comment)).1,
          hl_open_comment := (scanRow s (rowAt rows i).render
            (decide (0 < i) && (rowAt rows (i - 1)).hl_open_comment)).2 }) k = seedAt rows k := by
      intro k hk
      unfold seedAt
      rcases Nat.eq_zero_or_pos k with hk0 | hk0
      · subst hk0
        simp
      · rw [hvo (k - 1) (by omega)]
    have hconsi : rowConsistent s (rows.set i
        { rowAt rows i with
          hl := (scanRow s (rowAt rows i).render
            (decide (0 < i) && (rowAt rows (i - 1)).hl_open_comment)).1,
          hl_open_comment := (scanRow s (rowAt rows i).render
            (decide (0 < i) && (rowAt rows (i - 1)).hl_open_comment)).2 }) i := by
      unfold rowConsistent
      rw [hvi, hseed i (by omega)]
      unfold seedAt
      exact ⟨rfl, rfl⟩
    have htransfer : ∀ k, k < rows.length → k ≠ i → k ≠ i + 1 →
        rowConsistent s (rows.set i
          { rowAt rows i with
            hl := (scanRow s (rowAt rows i).render
              (decide (0 < i) && (rowAt rows (i - 1)).hl_open_comment)).1,
            hl_open_comment := (scanRow s (rowAt rows i).render
              (decide (0 < i) && (rowAt rows (i - 1)).hl_open_comment)).2 }) k := by
      intro k hk hki hki1
      unfold rowConsistent
      rw [hvo k hki, hseed k hki1]
      exact hpre k hk hki
    split
    · rename_i hguard
      have hi1 : i + 1 < rows.length := by
        simp only [Bool.and_eq_true, decide_eq_true_eq] at hguard
        exact hguard.2
      have hpre2 : ∀ k, k < (rows.set i
          { rowAt rows i with
            hl := (scanRow s (rowAt rows i).render
              (decide (0 < i) && (rowAt rows (i - 1)).hl_open_comment)).1,
            hl_open_comment := (scanRow s (rowAt rows i).render
              (decide (0 < i) && (rowAt rows (i - 1)).hl_open_comment)).2 }).length →
          k ≠ i + 1 → rowConsistent s (rows.set i
            { rowAt rows i with
              hl := (scanRow s (rowAt rows i).render
                (decide (0 < i) && (rowAt rows (i - 1)).hl_open_comment)).1,
              hl_open_comment := (scanRow s (rowAt rows i).render
                (decide (0 < i) && (rowAt rows (i - 1)).hl_open_comment)).2 }) k := by
        intro k hk hk1
        rw [List.length_set] at hk
        rcases eq_or_ne k i with hki | hki
        · subst hki
          exact hconsi
        · exact htransfer k hk hki hk1
      have hrec := ih (rows.set i
          { rowAt rows i with
            hl := (scanRow s (rowAt rows i).render
              (decide (0 < i) && (rowAt rows (i - 1)).hl_open_comment)).1,
            hl_open_comment := (scanRow s (rowAt rows i).render
              (decide (0 < i) && (rowAt rows (i - 1)).hl_open_comment)).2 }) (i + 1)
          (by simp; omega) (by simpa using hi1) hpre2
      simp only [List.length_set] at hrec
      exact hrec j (by simpa using hj)
    · rename_i hguard
      rcases eq_or_ne j i with hji | hji
      · subst hji
        exact hconsi
      · rcases eq_or_ne j (i + 1) with hji1 | hji1
        · subst hji1
          have hi1 : i + 1 < rows.length := hj
          have hchanged : (rowAt rows i).hl_open_comment =
              (scanRow s (rowAt rows i).render
                (decide (0 < i) && (rowAt rows (i - 1)).hl_open_comment)).2 := by
            by_contra hne
            apply hguard
            rw [Bool.and_eq_true, decide_eq_true_eq]
            exact ⟨bne_iff_ne.mpr hne, hi1⟩
          unfold rowConsistent
          rw [hvo (i + 1) (by omega)]
          have hseed1 : seedAt (rows.set i
              { rowAt rows i with
                hl := (scanRow s (rowAt rows i).render
                  (decide (0 < i) && (rowAt rows (i - 1)).hl_open_comment)).1,
                hl_open_comment := (scanRow s (rowAt rows i).render
                  (decide (0 < i) && (rowAt rows (i - 1)).hl_open_comment)).2 }) (i + 1) =
              seedAt rows (i + 1) := by
            unfold seedAt
            have h1 : i + 1 - 1 = i := by omega
            rw [h1, hvi]
            simp only [decide_eq_true_eq]
            rw [← hchanged]
          rw [hseed1]
          exact hpre (i + 1) hj (by omega)
        · unfold rowConsistent
          rw [hvo j hji, hseed j hji1]
          exact hpre j hj hji

/-- C9: after mutating row i of a buffer whose other rows were consistent,
the editorUpdateSyntax recursion performs at most numrows - i updates in
total (so also at most that many recursive ones), and when it stops every
row whose predecessor has hl_open_comment set begins its highlight scan in
the in-comment state (its stored hl is the scan of its render seeded with
true). -/
theorem C9_mlcomment_propagation (s : EditorSyntax) (rows : List Erow) (i : Nat)
    (hi : i < rows.length)
    (hpre : ∀ j, j < rows.length → j ≠ i → rowConsistent s rows j) :
    (editorUpdateSyntax (some s) rows.length (rows.length + 1) rows i).2 ≤ rows.length - i ∧
    (∀ j, j < rows.length →
      rowConsistent s (editorUpdateSyntax (some s) rows.length (rows.length + 1) rows i).1 j) ∧
    (∀ j, 0 < j → j < rows.length →
      (rowAt (editorUpdateSyntax (some s) rows.length (rows.length + 1) rows i).1
        (j - 1)).hl_open_comment = true →
      (rowAt (editorUpdateSyntax (some s) rows.length (rows.length + 1) rows i).1 j).hl =
        (scanRow s
          (rowAt (editorUpdateSyntax (some s) rows.length (rows.length + 1) rows i).1 j).render
          true).1) := by
  have hcons := editorUpdateSyntax_consistent s (rows.length + 1) rows i (by omega) hi hpre
  refine ⟨editorUpdateSyntax_count s (rows.length + 1) rows.length rows i hi (by omega), hcons, ?_⟩
  intro j hj0 hj hflag
  have hc := (hcons j hj).1
  have hseedj : seedAt (editorUpdateSyntax (some s) rows.length (rows.length + 1) rows i).1 j =
      true := by
    unfold seedAt
    rw [hflag]
    simp
    omega
  rw [hc, hseedj]

/-! ### C1: load/save round trip -/

theorem splitChunks_flatten : ∀ f : List Char, (splitChunks f).flatten = f := by
  intro f
  induction f with
  | nil => rfl
  | cons c rest ih =>
    rw [splitChunks]
    by_cases hc : (c == '\n') = true
    · rw [if_pos hc]
      have hc' : c = '\n' := beq_iff_eq.mp hc
      subst hc'
      simp [ih]
    · rw [if_neg hc]
      cases h : splitChunks rest with
      | nil =>
        have hrest : rest = [] := by
          have h2 := ih
          rw [h] at h2
          simpa using h2.symm
        subst hrest
        simp
      | cons l ls =>
        rw [h] at ih
        simp only [List.flatten_cons] at ih ⊢
        simp [ih]

theorem splitChunks_ne_nil (c : Char) (rest : List Char) : splitChunks (c :: rest) ≠ [] := by
  rw [splitChunks]
  by_cases hc : (c == '\n') = true
  · rw [if_pos hc]; simp
  · rw [if_neg hc]
    cases h : splitChunks rest <;> simp

/-- Every getline chunk is nonempty and holds '\n' at most as its last
byte. -/
theorem splitChunks_shape : ∀ (f : List Char), ∀ l ∈ splitChunks f,
    l ≠ [] ∧ ∀ c ∈ l.dropLast, c ≠ '\n' := by
  intro f
  induction f with
  | nil => intro l hl; simp [splitChunks] at hl
  | cons c rest ih =>
    intro l hl
    rw [splitChunks] at hl
    by_cases hc : (c == '\n') = true
    · rw [if_pos hc] at hl
      rcases List.mem_cons.mp hl with h1 | h2
      · subst h1; exact ⟨by simp, by simp⟩
      · exact ih l h2
    · rw [if_neg hc] at hl
      have hc' : c ≠ '\n' := by simpa using hc
      cases h : splitChunks rest with
      | nil =>
        rw [h] at hl
        simp only [List.mem_singleton] at hl
        subst hl
        exact ⟨by simp, by simp⟩
      | cons l0 ls =>
        rw [h] at hl
        rcases List.mem_cons.mp hl with h1 | h2
        · subst h1
          have hl0 := ih l0 (by rw [h]; exact List.mem_cons_self _ _)
          refine ⟨by simp, ?_⟩
          intro x hx
          cases l0 with
          | nil => exact absurd rfl hl0.1
          | cons a t =>
            rw [List.dropLast_cons₂] at hx
            rcases List.mem_cons.mp hx with hx1 | hx2
            · subst hx1; exact hc'
            · exact hl0.2 x hx2
        · exact ih l (by rw [h]; exact List.mem_cons_of_mem _ h2)

/-- When the file ends in '\n', every chunk ends in '\n'. -/
theorem splitChunks_all_nl : ∀ (f : List Char), f.getLast? = some '\n' →
    ∀ l ∈ splitChunks f, l.getLast? = some '\n' := by
  intro f
  induction f with
  | nil => intro h; simp at h
  | cons c rest ih =>
    intro hend l hl
    rw [splitChunks] at hl
    by_cases hc : (c == '\n') = true
    · rw [if_pos hc] at hl
      rcases List.mem_cons.mp hl with h1 | h2
      · subst h1; simp
      · cases rest with
        | nil => rw [splitChunks] at h2; simp at h2
        | cons d t =>
          have : (d :: t).getLast? = some '\n' := by
            rw [List.getLast?_cons_cons] at hend
            exact hend
          exact ih this l h2
    · rw [if_neg hc] at hl
      have hc' : c ≠ '\n' := by simpa using hc
      cases rest with
      | nil =>
        simp at hend
        exact absurd hend hc'
      | cons d t =>
        have hrest : (d :: t).getLast? = some '\n' := by
          rw [List.getLast?_cons_cons] at hend
          exact hend
        cases h : splitChunks (d :: t) with
        | nil => exact absurd h (splitChunks_ne_nil d t)
        | cons l0 ls =>
          rw [h] at hl
          rcases List.mem_cons.mp hl with h1 | h2
          · subst h1
            have hl0nl : l0.getLast? = some '\n' :=
              ih hrest l0 (by rw [h]; exact List.mem_cons_self _ _)
            have hl0ne : l0 ≠ [] :=
              (splitChunks_shape (d :: t) l0 (by rw [h]; exact List.mem_cons_self _ _)).1
            cases l0 with
            | nil => exact absurd rfl hl0ne
            | cons a t0 => rw [List.getLast?_cons_cons]; exact hl0nl
          · exact ih hrest l (by rw [h]; exact List.mem_cons_of_mem _ h2)

/-- Chunks before the last all end in '\n'. -/
theorem splitChunks_dropLast_nl : ∀ (f : List Char), ∀ l ∈ (splitChunks f).dropLast,
    l.getLast? = some '\n' := by
  intro f
  induction f with
  | nil => intro l hl; simp [splitChunks] at hl
  | cons c rest ih =>
    intro l hl
    rw [splitChunks] at hl
    by_cases hc : (c == '\n') = true
    · rw [if_pos hc] at hl
      cases h : splitChunks rest with
      | nil =>
        rw [h] at hl
        simp at hl
      | cons l0 ls =>
        rw [h, List.dropLast_cons₂] at hl
        rcases List.mem_cons.mp hl with h1 | h2
        · subst h1; simp
        · rw [← h] at h2
          exact ih l h2
    · rw [if_neg hc] at hl
      have hc' : c ≠ '\n' := by simpa using hc
      cases h : splitChunks rest with
      | nil =>
        rw [h] at hl
        simp at hl
      | cons l0 ls =>
        rw [h] at hl
        cases ls with
        | nil => simp at hl
        | cons l1 ls1 =>
          rw [List.dropLast_cons₂] at hl
          rcases List.mem_cons.mp hl with h1 | h2
          · subst h1
            have hl0 : l0.getLast? = some '\n' := by
              have := ih l0
              rw [h, List.dropLast_cons₂] at this
              exact this (List.mem_cons_self _ _)
            have hl0ne : l0 ≠ [] :=
              (splitChunks_shape rest l0 (by rw [h]; exact List.mem_cons_self _ _)).1
            cases l0 with
            | nil => exact absurd rfl hl0ne
            | cons a t0 => rw [List.getLast?_cons_cons]; exact hl0
          · have := ih l
            rw [h, List.dropLast_cons₂] at this
            exact this (List.mem_cons_of_mem _ h2)

/-- The last chunk ends in the file's last byte. -/
theorem splitChunks_getLast : ∀ (f : List Char) (lst : List Char),
    (splitChunks f).getLast? = some lst → lst.getLast? = f.getLast? := by
  intro f
  induction f with
  | nil => intro lst h; simp [splitChunks] at h
  | cons c rest ih =>
    intro lst h
    rw [splitChunks] at h
    by_cases hc : (c == '\n') = true
    · rw [if_pos hc] at h
      have hc' : c = '\n' := beq_iff_eq.mp hc
      cases hrest : splitChunks rest with
      | nil =>
        have hr : rest = [] := by
          cases rest with
          | nil => rfl
          | cons d t => exact absurd hrest (splitChunks_ne_nil d t)
        subst hr
        rw [hrest] at h
        simp at h
        subst h
        subst hc'
        simp
      | cons l0 ls =>
        rw [hrest] at h
        rw [List.getLast?_cons_cons] at h
        have hr2 : rest ≠ [] := by
          intro he
          rw [he] at hrest
          rw [splitChunks] at hrest
          simp at hrest
        have := ih lst (by rw [hrest]; exact h)
        rw [this]
        cases rest with
        | nil => exact absurd rfl hr2
        | cons d t => rw [List.getLast?_cons_cons]
    · rw [if_neg hc] at h
      cases hrest : splitChunks rest with
      | nil =>
        have hr : rest = [] := by
          cases rest with
          | nil => rfl
          | cons d t => exact absurd hrest (splitChunks_ne_nil d t)
        subst hr
        rw [hrest] at h
        simp at h
        subst h
        simp
      | cons l0 ls =>
        rw [hrest] at h
        have hr2 : rest ≠ [] := by
          intro he
          rw [he] at hrest
          rw [splitChunks] at hrest
          simp at hrest
        cases ls with
        | nil =>
          simp only [List.getLast?_singleton] at h
          have hl0 := ih l0 (by rw [hrest]; simp)
          have hl0ne : l0 ≠ [] :=
            (splitChunks_shape rest l0 (by rw [hrest]; exact List.mem_cons_self _ _)).1
          rw [Option.some_inj] at h
          subst h
          cases l0 with
          | nil => exact absurd rfl hl0ne
          | cons a t0 =>
            rw [List.getLast?_cons_cons]
            rw [hl0]
            cases rest with
            | nil => exact absurd rfl hr2
            | cons d t => rw [List.getLast?_cons_cons]
        | cons l1 ls1 =>
          rw [List.getLast?_cons_cons] at h
          have := ih lst (by rw [hrest]; rw [List.getLast?_cons_cons]; exact h)
          rw [this]
          cases rest with
          | nil => exact absurd rfl hr2
          | cons d t => rw [List.getLast?_cons_cons]

/-- Dropping nothing: a list whose last byte is neither '\n' nor '\r' is
left alone by the strip loop. -/
theorem stripLineEnd_id (l : List Char) (h1 : l.getLast? ≠ some '\n')
    (h2 : l.getLast? ≠ some '\r') : stripLineEnd l = l := by
  unfold stripLineEnd
  cases hr : l.reverse with
  | nil =>
    have : l = [] := List.reverse_eq_nil_iff.mp hr
    subst this
    simp
  | cons c t =>
    have hc : l.getLast? = some c := by
      rw [← List.head?_reverse, hr]
      rfl
    have hp : ((c == '\n' || c == '\r') = false) := by
      rw [hc] at h1 h2
      simp only [Bool.or_eq_false_iff, beq_eq_false_iff_ne, ne_eq]
      exact ⟨fun he => h1 (by rw [he]), fun he => h2 (by rw [he])⟩
    rw [List.dropWhile_cons_of_neg (by simp [hp])]
    rw [← hr, List.reverse_reverse]

/-- Stripping `xs ++ ['\n']` strips `xs`. -/
theorem stripLineEnd_append_nl (xs : List Char) :
    stripLineEnd (xs ++ ['\n']) = stripLineEnd xs := by
  unfold stripLineEnd
  rw [List.reverse_append]
  simp

/-- What the strip loop returns never ends in '\n' or '\r'. -/
theorem stripLineEnd_getLast (l : List Char) (c : Char)
    (h : (stripLineEnd l).getLast? = some c) : c ≠ '\n' ∧ c ≠ '\r' := by
  unfold stripLineEnd at h
  rw [List.getLast?_reverse] at h
  have hp : (fun c => c == '\n' || c == '\r') c = false := by
    have := List.head?_dropWhile_not (fun c => c == '\n' || c == '\r') l.reverse
    rw [h] at this
    simpa using this
  simp only [Bool.or_eq_false_iff, beq_eq_false_iff_ne, ne_eq] at hp
  exact hp

/-- The strip result is made of the input's bytes. -/
theorem stripLineEnd_subset (l : List Char) : stripLineEnd l ⊆ l := by
  intro x hx
  unfold stripLineEnd at hx
  rw [List.mem_reverse] at hx
  have := (List.dropWhile_sublist (l := l.reverse) (fun c => c == '\n' || c == '\r')).subset hx
  rw [List.mem_reverse] at this
  exact this

/-- A chunk with no interior '\n' strips to a row without any '\n'. -/
theorem stripLineEnd_no_nl (l : List Char) (hnl : ∀ c ∈ l.dropLast, c ≠ '\n') :
    '\n' ∉ stripLineEnd l := by
  intro hmem
  by_cases hend : l.getLast? = some '\n'
  · have hdec := List.dropLast_append_getLast? '\n' hend
    have hstrip : stripLineEnd l = stripLineEnd l.dropLast := by
      conv_lhs => rw [← hdec]
      rw [stripLineEnd_append_nl]
    rw [hstrip] at hmem
    exact hnl '\n' (stripLineEnd_subset l.dropLast hmem) rfl
  · have := stripLineEnd_subset l hmem
    cases hl : l.getLast? with
    | none =>
      have hl0 : l = [] := List.getLast?_eq_none_iff.mp hl
      subst hl0
      simp [stripLineEnd] at hmem
    | some d =>
      have hdec := List.dropLast_append_getLast? d hl
      rw [← hdec] at this
      rcases List.mem_append.mp this with h1 | h2
      · exact hnl '\n' h1 rfl
      · simp only [List.mem_singleton] at h2
        rw [← h2] at hl
        exact hend hl

/-- A chunk that ends in '\n', has no interior '\n' and passes the
goodFile test is restored exactly by strip-then-append-newline. -/
theorem chunk_restore (l : List Char) (hnl : l.getLast? = some '\n')
    (hshape : ∀ c ∈ l.dropLast, c ≠ '\n')
    (hgood : (chunkContent l).getLast? ≠ some '\r') :
    stripLineEnd l ++ ['\n'] = l := by
  have hdec := List.dropLast_append_getLast? '\n' hnl
  have hcontent : chunkContent l = l.dropLast := by
    unfold chunkContent
    rw [if_pos (by simp [hnl])]
  rw [hcontent] at hgood
  have hstrip : stripLineEnd l = l.dropLast := by
    conv_lhs => rw [← hdec]
    rw [stripLineEnd_append_nl]
    apply stripLineEnd_id
    · intro hne
      exact hshape '\n' (List.mem_of_getLast?_eq_some hne) rfl
    · exact hgood
  rw [hstrip, hdec]

/-- C1 as stated is false: the file "a\r\n" ends in '\n', but loading
strips the '\r' and saving writes back "a\n". -/
theorem C1_round_trip_counterexample :
    ("a\r\n".toList).getLast? = some '\n' ∧
    editorRowsToString (editorOpenRows ("a\r\n".toList)) ≠ "a\r\n".toList := by
  decide

/-- Loading a good file that ends in '\n' and saving reproduces it. -/
theorem load_save_nl (f : List Char) (hnl : f.getLast? = some '\n') (hg : goodFile f) :
    editorRowsToString (editorOpenRows f) = f := by
  unfold editorRowsToString editorOpenRows
  rw [List.map_map]
  have hcong : ∀ l ∈ splitChunks f,
      ((fun r => r ++ ['\n']) ∘ stripLineEnd) l = id l := by
    intro l hl
    simp only [Function.comp_apply, id_eq]
    exact chunk_restore l (splitChunks_all_nl f hnl l hl)
      ((splitChunks_shape f l hl).2) (hg l hl)
  rw [List.map_congr_left hcong, List.map_id]
  exact splitChunks_flatten f

/-- Loading a good nonempty file that does not end in '\n' and saving
appends exactly one trailing '\n'. -/
theorem load_save_no_nl (f : List Char) (hne : f ≠ []) (hnl : f.getLast? ≠ some '\n')
    (hg : goodFile f) :
    editorRowsToString (editorOpenRows f) = f ++ ['\n'] := by
  have hchne : splitChunks f ≠ [] := by
    cases f with
    | nil => exact absurd rfl hne
    | cons a t => exact splitChunks_ne_nil a t
  obtain ⟨lst, hlst⟩ : ∃ lst, (splitChunks f).getLast? = some lst := by
    cases hc : (splitChunks f).getLast? with
    | none => exact absurd (List.getLast?_eq_none_iff.mp hc) hchne
    | some l => exact ⟨l, rfl⟩
  have hdec := List.dropLast_append_getLast? lst hlst
  unfold editorRowsToString editorOpenRows
  rw [List.map_map]
  conv_lhs => rw [← hdec]
  rw [List.map_append, List.flatten_append]
  have hcong : ∀ l ∈ (splitChunks f).dropLast,
      ((fun r => r ++ ['\n']) ∘ stripLineEnd) l = id l := by
    intro l hl
    simp only [Function.comp_apply, id_eq]
    have hmem : l ∈ splitChunks f := List.dropLast_subset _ hl
    exact chunk_restore l (splitChunks_dropLast_nl f l hl)
      ((splitChunks_shape f l hmem).2) (hg l hmem)
  rw [List.map_congr_left hcong, List.map_id]
  have hlstmem : lst ∈ splitChunks f := by
    rw [← hdec]
    exact List.mem_append_right _ (List.mem_singleton.mpr rfl)
  have hlstnl : lst.getLast? ≠ some '\n' := by
    rw [splitChunks_getLast f lst hlst]
    exact hnl
  have hlstcr : lst.getLast? ≠ some '\r' := by
    have hgl := hg lst hlstmem
    unfold chunkContent at hgl
    rw [if_neg (by simp [hlstnl])] at hgl
    exact hgl
  have hstrip : stripLineEnd lst = lst := stripLineEnd_id lst hlstnl hlstcr
  simp only [List.map_cons, List.map_nil, Function.comp_apply, hstrip, List.flatten_cons,
    List.flatten_nil, List.append_nil]
  have hj : (splitChunks f).dropLast.flatten ++ lst = f := by
    calc (splitChunks f).dropLast.flatten ++ lst
        = ((splitChunks f).dropLast ++ [lst]).flatten := by simp [List.flatten_append]
      _ = (splitChunks f).flatten := by rw [hdec]
      _ = f := splitChunks_flatten f
  rw [← List.append_assoc, hj]

/-- Splitting a saved row: the newline written after the row is the next
chunk boundary. -/
theorem splitChunks_row_append (r : List Char) (tail : List Char) (hr : '\n' ∉ r) :
    splitChunks (r ++ '\n' :: tail) = (r ++ ['\n']) :: splitChunks tail := by
  induction r with
  | nil =>
    simp only [List.nil_append]
    rw [splitChunks]
    rw [if_pos (by simp)]
  | cons c r' ih =>
    have hc : c ≠ '\n' := fun he => hr (by rw [he]; exact List.mem_cons_self _ _)
    have hr' : '\n' ∉ r' := fun hm => hr (List.mem_cons_of_mem _ hm)
    simp only [List.cons_append]
    rw [splitChunks]
    rw [if_neg (by simp [hc])]
    rw [ih hr']

/-- Loading what editorRowsToString wrote restores the rows, when no row
contains '\n' and each row is a strip fixed point — both true of rows
that came from a load. -/
theorem editorOpenRows_save (rows : List (List Char))
    (h1 : ∀ r ∈ rows, '\n' ∉ r)
    (h2 : ∀ r ∈ rows, stripLineEnd (r ++ ['\n']) = r) :
    editorOpenRows (editorRowsToString rows) = rows := by
  induction rows with
  | nil => rfl
  | cons r rest ih =>
    unfold editorOpenRows editorRowsToString
    simp only [List.map_cons, List.flatten_cons]
    have hassoc : r ++ ['\n'] ++ (rest.map (fun r => r ++ ['\n'])).flatten =
        r ++ '\n' :: (rest.map (fun r => r ++ ['\n'])).flatten := by simp
    rw [hassoc, splitChunks_row_append r _ (h1 r (List.mem_cons_self _ _))]
    rw [List.map_cons]
    rw [h2 r (List.mem_cons_self _ _)]
    have ihh := ih (fun x hx => h1 x (List.mem_cons_of_mem _ hx))
      (fun x hx => h2 x (List.mem_cons_of_mem _ hx))
    unfold editorOpenRows editorRowsToString at ihh
    rw [ihh]

/-- Rows produced by a load contain no '\n' and are strip fixed points. -/
theorem load_rows_clean (f : List Char) :
    (∀ r ∈ editorOpenRows f, '\n' ∉ r) ∧
    (∀ r ∈ editorOpenRows f, stripLineEnd (r ++ ['\n']) = r) := by
  constructor
  · intro r hr
    unfold editorOpenRows at hr
    rw [List.mem_map] at hr
    obtain ⟨l, hl, rfl⟩ := hr
    exact stripLineEnd_no_nl l ((splitChunks_shape f l hl).2)
  · intro r hr
    unfold editorOpenRows at hr
    rw [List.mem_map] at hr
    obtain ⟨l, hl, rfl⟩ := hr
    rw [stripLineEnd_append_nl]
    apply stripLineEnd_id
    · intro hc
      exact (stripLineEnd_getLast l '\n' hc).1 rfl
    · intro hc
      exact (stripLineEnd_getLast l '\r' hc).2 rfl

/-- Save-load-save equals save: the round trip is idempotent after the
first save, for every file. -/
theorem save_load_save (f : List Char) :
    editorRowsToString (editorOpenRows (editorRowsToString (editorOpenRows f))) =
      editorRowsToString (editorOpenRows f) := by
  rw [editorOpenRows_save (editorOpenRows f) (load_rows_clean f).1 (load_rows_clean f).2]

/-- C1 (amended): for a file none of whose lines ends in '\r': when it
ends in '\n', load then save is byte-for-byte identity; when it is
nonempty and does not end in '\n', the first save appends exactly one
trailing '\n'; and for every file save/load round-trips are idempotent
after the first save.  The '\r' restriction (and nonemptiness for the
second part) is forced by the counterexample: editorOpen also strips
trailing '\r' bytes, and an empty file saves as zero bytes. -/
theorem C1_round_trip_amended (f : List Char) (hg : goodFile f) :
    (f.getLast? = some '\n' → editorRowsToString (editorOpenRows f) = f) ∧
    (f ≠ [] → f.getLast? ≠ some '\n' →
      editorRowsToString (editorOpenRows f) = f ++ ['\n']) ∧
    editorRowsToString (editorOpenRows (editorRowsToString (editorOpenRows f))) =
      editorRowsToString (editorOpenRows f) :=
  ⟨fun hnl => load_save_nl f hnl hg,
   fun hne hnl => load_save_no_nl f hne hnl hg,
   save_load_save f⟩

/-- Witness for C1_round_trip_amended: the file "a\nb" (no trailing
newline) saves as "a\nb\n". -/
theorem C1_round_trip_amended_witness :
    editorRowsToString (editorOpenRows ("a\nb".toList)) = "a\nb".toList ++ ['\n'] :=
  (C1_round_trip_amended ("a\nb".toList) (by unfold goodFile; decide)).2.1
    (by decide) (by decide)

/-! ### C2: syntax selection by filename -/

/-- strchr semantics: the code's extension is the suffix of the filename
from its first dot. -/
theorem extOf_eq_some_iff : ∀ (fn e : List Char), e.head? = some '.' →
    (extOf fn = some e ↔ ∃ pre, fn = pre ++ e ∧ '.' ∉ pre) := by
  intro fn
  induction fn with
  | nil =>
    intro e he
    constructor
    · intro h; simp [extOf] at h
    · rintro ⟨pre, hpre, -⟩
      cases e with
      | nil => simp at he
      | cons a t => simp at hpre
  | cons c rest ih =>
    intro e he
    rw [extOf]
    by_cases hc : (c == '.') = true
    · rw [if_pos hc]
      have hc2 : c = '.' := beq_iff_eq.mp hc
      constructor
      · intro h
        rw [Option.some_inj] at h
        exact ⟨[], by simp [h], by simp⟩
      · rintro ⟨pre, hpre, hdot⟩
        cases pre with
        | nil =>
          simp only [List.nil_append] at hpre
          rw [hpre]
        | cons p ps =>
          have hp : p = c := by
            have := congrArg List.head? hpre
            simpa using this.symm
          exact absurd (by rw [hp, hc2]; exact List.mem_cons_self _ _ : '.' ∈ p :: ps) hdot
    · rw [if_neg hc]
      have hc2 : c ≠ '.' := by simpa using hc
      rw [ih e he]
      constructor
      · rintro ⟨pre, hpre, hdot⟩
        refine ⟨c :: pre, by simp [hpre], ?_⟩
        intro hm
        rcases List.mem_cons.mp hm with h1 | h2
        · exact hc2 h1.symm
        · exact hdot h2
      · rintro ⟨pre, hpre, hdot⟩
        cases pre with
        | nil =>
          simp only [List.nil_append] at hpre
          have hh : e.head? = some c := by rw [← hpre]; rfl
          rw [he] at hh
          exact absurd (Option.some_inj.mp hh).symm hc2
        | cons p ps =>
          have hp : p = c := by
            have := congrArg List.head? hpre
            simpa using this.symm
          subst hp
          simp only [List.cons_append, List.cons.injEq, true_and] at hpre
          exact ⟨ps, hpre, fun hm => hdot (List.mem_cons_of_mem _ hm)⟩

/-- strstr finds an occurrence exactly when the pattern occurs. -/
theorem strstrIdx_isSome_iff : ∀ (hay pat : List Char),
    (strstrIdx hay pat).isSome = true ↔ ∃ l r, hay = l ++ (pat ++ r) := by
  intro hay
  induction hay with
  | nil =>
    intro pat
    rw [strstrIdx]
    by_cases hp : pat.isPrefixOf ([] : List Char) = true
    · rw [if_pos hp]
      have hpe : pat = [] := by
        have := List.isPrefixOf_iff_prefix.mp hp
        simpa using this
      subst hpe
      simp
    · rw [if_neg hp]
      constructor
      · intro h; simp at h
      · rintro ⟨l, r, h⟩
        have hpe : pat = [] := by
          have hlen := congrArg List.length h
          simp at hlen
          exact List.length_eq_zero.mp (by omega)
        subst hpe
        exact (hp (by simp)).elim
  | cons c t ih =>
    intro pat
    rw [strstrIdx]
    by_cases hp : pat.isPrefixOf (c :: t) = true
    · rw [if_pos hp]
      constructor
      · intro _
        obtain ⟨r, hr⟩ := List.isPrefixOf_iff_prefix.mp hp
        exact ⟨[], r, by simp [← hr]⟩
      · intro _; simp
    · rw [if_neg hp]
      constructor
      · intro h
        have h2 : (strstrIdx t pat).isSome = true := by
          cases hs : strstrIdx t pat with
          | none => rw [hs] at h; simp at h
          | some o => rfl
        obtain ⟨l, r, hr⟩ := (ih pat).mp h2
        exact ⟨c :: l, r, by simp [hr]⟩
      · rintro ⟨l, r, hr⟩
        cases l with
        | nil =>
          exfalso
          apply hp
          rw [List.isPrefixOf_iff_prefix]
          exact ⟨r, by simpa using hr.symm⟩
        | cons a l2 =>
          simp only [List.cons_append, List.cons.injEq] at hr
          have h2 := (ih pat).mpr ⟨l2, r, hr.2⟩
          cases hs : strstrIdx t pat with
          | none => rw [hs] at h2; simp at h2
          | some o => rfl

/-- Every row of the buffer keeps hl.length = render.length through the
re-highlight loop of editorSelectSyntaxHighlight. -/
theorem rehighlight_hlOk (s : EditorSyntax) (hwfs : synWF s = true) (n : Nat) :
    ∀ (ks : List Nat) (rs : List Erow), rs.length = n → (∀ k ∈ ks, k < n) → hlOk rs →
      hlOk (ks.foldl (fun rs k => (editorUpdateSyntax (some s) n (n + 1) rs k).1) rs) := by
  intro ks
  induction ks with
  | nil => intro rs h1 h2 h3; exact h3
  | cons k ks ih =>
    intro rs h1 h2 h3
    rw [List.foldl_cons]
    have hk : k < n := h2 k (List.mem_cons_self _ _)
    have hstep : hlOk (editorUpdateSyntax (some s) n (n + 1) rs k).1 := by
      intro j hj
      rw [editorUpdateSyntax_length] at hj
      exact editorUpdateSyntax_hl (some s) (by simpa [synWFopt] using hwfs) (n + 1) n rs k
        (by omega) (by omega) (by omega) (fun j2 hj2 _ => h3 j2 hj2) j hj
    have hlen : (editorUpdateSyntax (some s) n (n + 1) rs k).1.length = n := by
      rw [editorUpdateSyntax_length]; exact h1
    exact ih _ hlen (fun k2 hk2 => h2 k2 (List.mem_cons_of_mem _ hk2)) hstep

/-- C2 as stated is false: for the filename "a.b.c" the claim (extension
from the LAST dot) makes ".c" match and selects the C syntax, but the
code takes strchr's FIRST dot, so ".b.c" matches nothing and no syntax is
selected. -/
theorem C2_select_counterexample :
    specFilematchOne ("a.b.c".toList) (".c".toList) = true ∧
    filematchOne ("a.b.c".toList) (".c".toList) = false ∧
    editorSelectSyntaxHL [cSyntax] (some ("a.b.c".toList)) = none := by
  decide

/-- C2 (amended): a pattern beginning with '.' matches exactly when it
equals the extension taken from the FIRST dot of the filename (the code
uses strchr): the filename splits as a dot-free prefix followed by the
pattern.  Other patterns match as substrings.  The first matching
descriptor is selected, and the re-highlight pass it triggers leaves
every row with one highlight byte per render byte. -/
theorem C2_select_amended :
    (∀ (fn pat : List Char), filematchOne fn pat = true ↔
      ((pat.head? = some '.' ∧ ∃ pre, fn = pre ++ pat ∧ '.' ∉ pre) ∨
       (pat.head? ≠ some '.' ∧ ∃ l r, fn = l ++ (pat ++ r)))) ∧
    (∀ (db : List EditorSyntax) (fn : List Char) (s : EditorSyntax),
      editorSelectSyntaxHL db (some fn) = some s →
      matchesEntry fn s = true ∧
      ∃ pre suf, db = pre ++ s :: suf ∧ ∀ s2 ∈ pre, matchesEntry fn s2 = false) ∧
    (∀ (db : List EditorSyntax) (fn : List Char) (rows : List Erow) (s : EditorSyntax),
      synWF s = true →
      (editorSelectSyntaxHighlight db (some fn) rows).1 = some s →
      hlOk rows → hlOk (editorSelectSyntaxHighlight db (some fn) rows).2) := by
  refine ⟨?_, ?_, ?_⟩
  · intro fn pat
    unfold filematchOne
    by_cases hd : (pat.head? == some '.') = true
    · have hd2 : pat.head? = some '.' := beq_iff_eq.mp hd
      rw [if_pos hd]
      constructor
      · intro h
        left
        refine ⟨hd2, ?_⟩
        cases hext : extOf fn with
        | none => rw [hext] at h; simp at h
        | some e =>
          rw [hext] at h
          have he : e = pat := beq_iff_eq.mp h
          subst he
          exact (extOf_eq_some_iff fn e hd2).mp hext
      · rintro (⟨-, pre, hpre, hdot⟩ | ⟨hne, -⟩)
        · rw [(extOf_eq_some_iff fn pat hd2).mpr ⟨pre, hpre, hdot⟩]
          simp
        · exact absurd hd2 hne
    · have hd2 : pat.head? ≠ some '.' := by simpa using hd
      rw [if_neg hd]
      rw [strstrIdx_isSome_iff]
      constructor
      · intro h
        right
        exact ⟨hd2, h⟩
      · rintro (⟨he, -⟩ | ⟨-, h⟩)
        · exact absurd he hd2
        · exact h
  · intro db fn s h
    unfold editorSelectSyntaxHL at h
    rw [List.find?_eq_some] at h
    obtain ⟨hp, pre, suf, hdb, hall⟩ := h
    refine ⟨hp, pre, suf, hdb, fun s2 hs2 => ?_⟩
    have := hall s2 hs2
    simpa using this
  · intro db fn rows s hwfs hsel hok
    have hfind : db.find? (matchesEntry fn) = some s := by
      unfold editorSelectSyntaxHighlight at hsel
      dsimp only at hsel
      split at hsel
      · rename_i s2 heq
        dsimp only at hsel
        rw [← hsel]
        exact heq
      · dsimp only at hsel
        exact absurd hsel (by simp)
    unfold editorSelectSyntaxHighlight
    dsimp only
    rw [hfind]
    dsimp only
    exact rehighlight_hlOk s hwfs rows.length (List.range rows.length) rows rfl
      (fun k hk => List.mem_range.mp hk) hok

/-! ### C10: search lands only on first occurrences -/

/-- strstr soundness and minimality: the returned offset is a match and
no smaller offset is. -/
theorem strstrIdx_spec : ∀ (hay pat : List Char) (o : Nat), strstrIdx hay pat = some o →
    pat.isPrefixOf (hay.drop o) = true ∧
    ∀ j, j < o → pat.isPrefixOf (hay.drop j) = false := by
  intro hay
  induction hay with
  | nil =>
    intro pat o h
    rw [strstrIdx] at h
    split at h
    · rename_i hpre
      simp only [Option.some_inj] at h
      subst h
      exact ⟨by simpa using hpre, fun j hj => absurd hj (by omega)⟩
    · simp at h
  | cons c t ih =>
    intro pat o h
    rw [strstrIdx] at h
    split at h
    · rename_i hpre
      simp only [Option.some_inj] at h
      subst h
      exact ⟨by simpa using hpre, fun j hj => absurd hj (by omega)⟩
    · rename_i hpre
      cases hs : strstrIdx t pat with
      | none => rw [hs] at h; simp at h
      | some o2 =>
        rw [hs] at h
        simp only [Option.map_some', Option.some_inj] at h
        subst h
        obtain ⟨h1, h2⟩ := ih pat o2 hs
        constructor
        · simpa using h1
        · intro j hj
          cases j with
          | zero =>
            simpa using Bool.not_eq_true _ ▸ (by simpa using hpre)
          | succ j2 =>
            have : j2 < o2 := by omega
            simpa using h2 j2 this

/-- The search walk only reports strstr hits. -/
theorem findLoop_sound (rows : List Erow) (query : List Char) (dir : Int) :
    ∀ (fuel : Nat) (cur : Int) (idx off : Nat),
      findLoop rows query dir fuel cur = some (idx, off) →
      strstrIdx (rowAt rows idx).render query = some off := by
  intro fuel
  induction fuel with
  | zero => intro cur idx off h; simp [findLoop] at h
  | succ fuel ih =>
    intro cur idx off h
    rw [findLoop] at h
    split at h
    · rename_i off2 heq
      simp only [Option.some_inj, Prod.mk.injEq] at h
      obtain ⟨rfl, rfl⟩ := h
      exact heq
    · exact ih _ idx off h

/-- Replacing one row's hl keeps every row's chars and render. -/
theorem setHl_fields (rows : List Erow) (i : Nat) (v : Erow)
    (hv1 : v.chars = (rowAt rows i).chars) (hv2 : v.render = (rowAt rows i).render) :
    ∀ j, (rowAt (rows.set i v) j).chars = (rowAt rows j).chars ∧
         (rowAt (rows.set i v) j).render = (rowAt rows j).render := by
  intro j
  rw [rowAt_set]
  by_cases hij : i = j ∧ i < rows.length
  · rw [if_pos hij]
    obtain ⟨rfl, -⟩ := hij
    exact ⟨hv1, hv2⟩
  · rw [if_neg hij]
    exact ⟨rfl, rfl⟩

/-- One find-callback step keeps the rows' text and either leaves the
cursor alone or puts it on a first strstr match. -/
theorem findCallback_step (query : List Char) (key : FindKey) (fs : FindState)
    (ed0 ed : FindEd) (hsk : sameSkeleton ed0 ed) (hcur : cursorOk ed0 query ed) :
    sameSkeleton ed0 (editorFindCallback query key fs ed).2 ∧
    cursorOk ed0 query (editorFindCallback query key fs ed).2 := by
  obtain ⟨hlen, hcr⟩ := hsk
  have hskSet : ∀ (rs : List Erow) (line : Nat) (hl : List HL),
      rs.length = ed0.rows.length →
      (∀ j, (rowAt rs j).chars = (rowAt ed0.rows j).chars ∧
            (rowAt rs j).render = (rowAt ed0.rows j).render) →
      (rs.set line { rowAt rs line with hl := hl }).length = ed0.rows.length ∧
      ∀ j, (rowAt (rs.set line { rowAt rs line with hl := hl }) j).chars =
             (rowAt ed0.rows j).chars ∧
           (rowAt (rs.set line { rowAt rs line with hl := hl }) j).render =
             (rowAt ed0.rows j).render := by
    intro rs line hl h1 h2
    refine ⟨by simpa using h1, fun j => ?_⟩
    have hx := setHl_fields rs line { rowAt rs line with hl := hl } rfl rfl j
    exact ⟨hx.1.trans (h2 j).1, hx.2.trans (h2 j).2⟩
  unfold editorFindCallback
  cases hsv : fs.saved_hl with
  | none =>
    dsimp only
    split
    · exact ⟨⟨hlen, hcr⟩, hcur⟩
    · split
      · rename_i p idx off heq
        have hsome := findLoop_sound ed.rows query _ ed.rows.length _ idx off heq
        constructor
        · exact ⟨(hskSet ed.rows idx _ hlen hcr).1, (hskSet ed.rows idx _ hlen hcr).2⟩
        · right
          refine ⟨idx, off, ?_, rfl, ?_⟩
          · rw [← (hcr idx).2]
            exact hsome
          · dsimp only
            rw [(hcr idx).1]
      · exact ⟨⟨hlen, hcr⟩, hcur⟩
  | some hl =>
    dsimp only
    have hset := hskSet ed.rows fs.saved_hl_line hl hlen hcr
    split
    · exact ⟨⟨hset.1, hset.2⟩, hcur⟩
    · split
      · rename_i p idx off heq
        have hsome := findLoop_sound _ query _ _ _ idx off heq
        constructor
        · exact ⟨(hskSet _ idx _ hset.1 hset.2).1, (hskSet _ idx _ hset.1 hset.2).2⟩
        · right
          refine ⟨idx, off, ?_, rfl, ?_⟩
          · rw [← (hset.2 idx).2]
            exact hsome
          · dsimp only
            rw [(hset.2 idx).1]
      · exact ⟨⟨hset.1, hset.2⟩, hcur⟩

/-- The invariant holds along any key sequence. -/
theorem findSteps_inv (query : List Char) (keys : List FindKey) :
    ∀ (p : FindState × FindEd) (ed0 : FindEd),
      sameSkeleton ed0 p.2 → cursorOk ed0 query p.2 →
      sameSkeleton ed0 (keys.foldl (stepFind query) p).2 ∧
      cursorOk ed0 query (keys.foldl (stepFind query) p).2 := by
  induction keys with
  | nil => intro p ed0 h1 h2; exact ⟨h1, h2⟩
  | cons k ks ih =>
    intro p ed0 h1 h2
    rw [List.foldl_cons]
    have hstep := findCallback_step query k p.1 ed0 p.2 h1 h2
    exact ih (stepFind query p k) ed0 hstep.1 hstep.2

/-- C10: over any sequence of find-callback steps, the cursor is either
untouched or sits at the offset of strstr's FIRST match of the query in
some row's render — no smaller offset of that row matches, so a second
occurrence within a row is never reached. -/
theorem C10_search_first_match (query : List Char) (keys : List FindKey)
    (fs : FindState) (ed : FindEd) :
    ((keys.foldl (stepFind query) (fs, ed)).2.cy = ed.cy ∧
     (keys.foldl (stepFind query) (fs, ed)).2.cx = ed.cx) ∨
    ∃ idx off,
      strstrIdx (rowAt ed.rows idx).render query = some off ∧
      query.isPrefixOf ((rowAt ed.rows idx).render.drop off) = true ∧
      (∀ j, j < off → query.isPrefixOf ((rowAt ed.rows idx).render.drop j) = false) ∧
      (keys.foldl (stepFind query) (fs, ed)).2.cy = idx ∧
      (keys.foldl (stepFind query) (fs, ed)).2.cx =
        editorRowRxToCx (rowAt ed.rows idx).chars off := by
  have hinv := findSteps_inv query keys (fs, ed) ed ⟨rfl, fun j => ⟨rfl, rfl⟩⟩
    (Or.inl ⟨rfl, rfl⟩)
  rcases hinv.2 with h | ⟨idx, off, hso, hcy, hcx⟩
  · exact Or.inl h
  · have hspec := strstrIdx_spec (rowAt ed.rows idx).render query off hso
    exact Or.inr ⟨idx, off, hso, hspec.1, hspec.2, hcy, hcx⟩

/-- Witness for C9_mlcomment_propagation: row 0's chars just became "/*"
(stale hl and flag), row 1 ("x") is consistent with the old flag; the
chain from row 0 runs at most 2 updates. -/
theorem C9_mlcomment_propagation_witness :
    (editorUpdateSyntax (some cSyntax) c9rows.length (c9rows.length + 1) c9rows 0).2 ≤
      c9rows.length - 0 :=
  (C9_mlcomment_propagation cSyntax c9rows 0 (by decide)
    (by
      intro j hj hne
      have hlen : c9rows.length = 2 := rfl
      rw [hlen] at hj
      have hj1 : j = 1 := by omega
      subst hj1
      exact ⟨by decide, by decide⟩)).1

end Kilo
